import Mathlib

/-!
Shallow embedding of the Hesiod core graph model and scheduler
(`src/hesiod_py/core/graph.py`, `runtime.py`, `project.py`) together with
proofs of the specification claims about them.

Python dictionaries are embedded as association lists with unique keys
(`alookup` / `ainsert` / `aerase` mirror `d.get`, `d[k] = v`, `del d[k]`),
Python sets as duplicate-free lists with membership semantics, and the
open-ended Python value universe flowing through ports and parameters as a
closed tagged union `Value` (scalars, strings, lists, string-keyed dicts and
numpy arrays reduced to shape / dtype / raw bytes).
-/

namespace Hesiod

/-- Lookup in an association list, mirroring Python `dict.get`. -/
def alookup {α : Type} : List (String × α) → String → Option α
  | [], _ => none
  | (k, v) :: rest, key => if k = key then some v else alookup rest key

/-- Insert / overwrite in an association list, mirroring Python `d[k] = v`
(an existing key keeps its position, a new key is appended). -/
def ainsert {α : Type} (l : List (String × α)) (key : String) (v : α) :
    List (String × α) :=
  if (alookup l key).isSome then
    l.map (fun p => if p.1 = key then (key, v) else p)
  else l ++ [(key, v)]

/-- Remove a key from an association list, mirroring Python `d.pop(k, None)`. -/
def aerase {α : Type} (l : List (String × α)) (key : String) : List (String × α) :=
  l.filter (fun p => p.1 ≠ key)

/-- Add an element to a Python-set-as-list (`s.add(x)`). -/
def addSet (s : List String) (k : String) : List String :=
  if k ∈ s then s else s ++ [k]

/-- The closed union of values flowing through ports and parameters:
`None`, booleans, integers, strings, lists/tuples, string-keyed dicts, and
numpy arrays carried as (shape, dtype tag, raw element bytes). -/
inductive Value where
  | vnone  : Value
  | vbool  : Bool → Value
  | vint   : Int → Value
  | vstr   : String → Value
  | vlist  : List Value → Value
  | vdict  : List (String × Value) → Value
  | vnd    : List Nat → String → List Nat → Value

/-- `Connection` from `graph.py`: the stored source endpoint of a directed
port-to-port edge, keyed externally by (target node, target port). -/
structure Conn where
  source_node : String
  source_port : String
deriving DecidableEq

/-- `Node` from `graph.py`: key, registry type, optional title, parameters
and metadata mappings. -/
structure GNode where
  key : String
  type : String
  title : Option String := none
  parameters : List (String × Value) := []
  metadata : List (String × Value) := []

/-- Errors raised by `Graph` operations (`GraphError` in `graph.py`),
carrying the data interpolated into the Python message. -/
inductive GraphErr where
  | duplicateNode : String → GraphErr
  | unknownNode : String → GraphErr
  | cycle : List String → GraphErr
deriving DecidableEq

/-- `Graph` from `graph.py`: nodes keyed by `key`, connections keyed by
target node then target port, the reverse `dependents` index, and the dirty
set. -/
structure Graph where
  name : String
  metadata : List (String × Value) := []
  nodes : List GNode := []
  connections : List (String × List (String × Conn)) := []
  dependents : List (String × List String) := []
  dirty : List String := []

namespace Graph

/-- The key set of `self.nodes`. -/
def nodeKeys (g : Graph) : List String := g.nodes.map (·.key)

/-- `self.nodes[key]` as a partial lookup. -/
def findNode (g : Graph) (k : String) : Option GNode :=
  g.nodes.find? (fun n => n.key == k)

/-- `Graph.inputs_for`: the connections targeting a node, by target port. -/
def inputs_for (g : Graph) (k : String) : List (String × Conn) :=
  (alookup g.connections k).getD []

/-- `Graph.dependencies_of`: the set of distinct source node keys feeding a
node. -/
def dependencies_of (g : Graph) (k : String) : List String :=
  (((g.inputs_for k).map (fun pc => pc.2.source_node))).dedup

/-- `Graph.dependents_of`: the reverse-index entry for a node. -/
def dependents_of (g : Graph) (k : String) : List String :=
  (alookup g.dependents k).getD []

/-- `Graph.mark_dirty`: mark an existing node and all of its current
dependents dirty (single-level cascade). -/
def mark_dirty (g : Graph) (k : String) : Graph :=
  if k ∈ g.nodeKeys then
    { g with dirty := (g.dependents_of k).foldl addSet (addSet g.dirty k) }
  else g

/-- `Graph.clear_dirty`: discard one node from the dirty set. -/
def clear_dirty (g : Graph) (k : String) : Graph :=
  { g with dirty := g.dirty.filter (· ≠ k) }

/-- `Graph.add_node`. -/
def add_node (g : Graph) (n : GNode) : Except GraphErr Graph :=
  if n.key ∈ g.nodeKeys then .error (.duplicateNode n.key)
  else .ok (mark_dirty { g with nodes := g.nodes ++ [n] } n.key)

/-- `Graph.connect`: both endpoints must exist; the connection replaces any
occupant of (target, target port); the source gains the target as a
dependent; the target is marked dirty. -/
def connect (g : Graph) (source_node source_port target_node target_port : String) :
    Except GraphErr Graph :=
  if source_node ∉ g.nodeKeys then .error (.unknownNode source_node)
  else if target_node ∉ g.nodeKeys then .error (.unknownNode target_node)
  else
    let inner := (alookup g.connections target_node).getD []
    let conns' := ainsert g.connections target_node
      (ainsert inner target_port ⟨source_node, source_port⟩)
    let deps' := ainsert g.dependents source_node
      (addSet ((alookup g.dependents source_node).getD []) target_node)
    .ok (mark_dirty { g with connections := conns', dependents := deps' } target_node)

/-- `Graph.disconnect`: no-op when nothing is connected at (node, port);
otherwise removes the connection, discards the node from the old source
entry of the reverse index, and marks the node dirty. -/
def disconnect (g : Graph) (node port : String) : Graph :=
  match alookup g.connections node with
  | none => g
  | some inner =>
    match alookup inner port with
    | none => g
    | some conn =>
      let inner' := aerase inner port
      let conns' := if inner'.isEmpty then aerase g.connections node
                    else ainsert g.connections node inner'
      let deps' := ainsert g.dependents conn.source_node
        (((alookup g.dependents conn.source_node).getD []).filter (· ≠ node))
      mark_dirty { g with connections := conns', dependents := deps' } node

/-- The connection-map update of one `remove_node` loop iteration: delete
every connection into `target` sourced at the removed node, and drop the
`target` entry entirely when it becomes empty. -/
def remove_conns (node_key : String)
    (conns : List (String × List (String × Conn))) (target : String) :
    List (String × List (String × Conn)) :=
  if (((alookup conns target).getD []).filter
      (fun pc => !(pc.2.source_node == node_key))).isEmpty then
    aerase conns target
  else
    ainsert conns target
      (((alookup conns target).getD []).filter
        (fun pc => !(pc.2.source_node == node_key)))

/-- The reverse-index update of one `remove_node` loop iteration:
`self._dependents[node_key].discard(target)`. -/
def remove_target_deps (node_key target : String) (g₁ : Graph) : Graph :=
  let deps' := ainsert g₁.dependents node_key
    (((alookup g₁.dependents node_key).getD []).filter (· ≠ target))
  { g₁ with dependents := deps' }

/-- One iteration of the `remove_node` loop body: delete every connection
into `target` whose source is the node being removed (marking `target`
dirty per deletion), dropping the target entry when it becomes empty, and
discard `target` from the removed node's reverse-index entry. -/
def remove_node_target (node_key : String) (g : Graph) (target : String) : Graph :=
  remove_target_deps node_key target
    ((((alookup g.connections target).getD []).filter
        (fun pc => pc.2.source_node == node_key)).foldl
      (fun acc _ => mark_dirty acc target)
      { g with connections := remove_conns node_key g.connections target })

/-- `Graph.remove_node`: unknown keys fail; otherwise outgoing connections
(found through the reverse index) are deleted, the reverse-index entry and
the incoming-connection entry are popped, the node is removed, and a final
`mark_dirty` call is made (which tests membership of the now-removed key). -/
def remove_node (g : Graph) (node_key : String) : Except GraphErr Graph :=
  if node_key ∉ g.nodeKeys then .error (.unknownNode node_key)
  else
    let targets := (alookup g.dependents node_key).getD []
    let g₁ := targets.foldl (remove_node_target node_key) g
    let g₂ := { g₁ with
      dependents := aerase g₁.dependents node_key,
      nodes := g₁.nodes.filter (fun n => n.key ≠ node_key),
      connections := aerase g₁.connections node_key }
    .ok (mark_dirty g₂ node_key)

/-- `Graph._add_dependencies_recursive`: depth-first collection of the
dependency closure into `visited` (the recursion is fuelled; any fuel at
least `allKeys.length + 1` is enough, see `adr_spec`). -/
def add_dependencies_recursive (g : Graph) : Nat → String → List String → List String
  | 0, _, visited => visited
  | fuel + 1, node_key, visited =>
    if node_key ∈ visited then visited
    else (g.dependencies_of node_key).foldl
      (fun v d => add_dependencies_recursive g fuel d v) (node_key :: visited)

/-- Every key that any dependency traversal of `g` can reach: node keys,
connection targets and connection sources. -/
def allKeys (g : Graph) : List String :=
  (g.nodeKeys ++
    g.connections.map (fun p => p.1) ++
    g.connections.foldr
      (fun (p : String × List (String × Conn)) (acc : List String) =>
        p.2.map (fun pc => pc.2.source_node) ++ acc) []).dedup

end Graph

/-- Kahn-style topological sort, embedding the semantics of CPython
`graphlib.TopologicalSorter.static_order` as used by
`Graph.topological_order`: repeatedly emit every node all of whose
predecessors have already been emitted; when no node is ready and nodes
remain, fail (`CycleError`) carrying the unprocessed remainder. -/
def static_order (deps : String → List String) :
    Nat → List String → List String → Except (List String) (List String)
  | 0, remaining, acc => if remaining.isEmpty then .ok acc.reverse else .error remaining
  | fuel + 1, remaining, acc =>
    if remaining.isEmpty then .ok acc.reverse
    else
      let ready := remaining.filter (fun n => (deps n).all (fun d => decide (d ∉ remaining)))
      if ready.isEmpty then .error remaining
      else static_order deps fuel
        (remaining.filter (fun n => decide (n ∉ ready))) (ready.reverse ++ acc)

namespace Graph

/-- The closure-collection loop of `Graph.topological_order`: feed every
target node through `_add_dependencies_recursive` into one visited set. -/
def closure_visited (g : Graph) (target_nodes : List String) : List String :=
  target_nodes.foldl
    (fun v k => add_dependencies_recursive g (g.allKeys.length + 1) k v) []

/-- `Graph.topological_order`: resolve the requested node set (all nodes
when `limit_to` is unspecified, otherwise the known requested keys, with an
empty resolution short-circuiting to an empty order), collect the
dependency closure recursively, and run the topological sorter on it. -/
def topological_order (g : Graph) (limit_to : Option (List String)) :
    Except GraphErr (List String) :=
  let proceed : List String → Except GraphErr (List String) := fun target_nodes =>
    let visited := g.closure_visited target_nodes
    match static_order g.dependencies_of (visited.length + 1) visited [] with
    | .ok order => .ok order
    | .error rem => .error (.cycle rem)
  match limit_to with
  | none => proceed g.nodeKeys
  | some lt =>
    let target_nodes := (lt.filter (· ∈ g.nodeKeys)).dedup
    if target_nodes.isEmpty then .ok []
    else proceed target_nodes

/-- The node set whose closure `topological_order` (and `evaluate`) work
on: all nodes when `limit_to` is unspecified, otherwise the requested keys
that exist in the graph. -/
def resolved_targets (g : Graph) (limit_to : Option (List String)) : List String :=
  match limit_to with
  | none => g.nodeKeys
  | some lt => (lt.filter (· ∈ g.nodeKeys)).dedup

end Graph

/-- Direct dependency edge: `b` is a source feeding `a`. -/
def DepEdge (g : Graph) (a b : String) : Prop := b ∈ g.dependencies_of a

/-- The graph has no dependency cycle. -/
def Acyclic (g : Graph) : Prop := ∀ n, ¬ Relation.TransGen (DepEdge g) n n

/-- `n` is in the transitive-dependency closure of `roots`. -/
def InClosure (g : Graph) (roots : List String) (n : String) : Prop :=
  ∃ r ∈ roots, Relation.ReflTransGen (DepEdge g) r n

/-- Structural sanity of a graph as maintained by the public mutation API:
unique node keys, unique connection entries, and connection endpoints that
reference existing nodes. -/
def WellFormed (g : Graph) : Prop :=
  g.nodeKeys.Nodup ∧
  (g.connections.map (·.1)).Nodup ∧
  ∀ p ∈ g.connections, p.1 ∈ g.nodeKeys ∧ (p.2.map (·.1)).Nodup ∧
    ∀ pc ∈ p.2, pc.2.source_node ∈ g.nodeKeys

instance (g : Graph) : Decidable (WellFormed g) := by
  unfold WellFormed; infer_instance

/-! ### The closure traversal computes dependency-closed reachability -/

/-- Recursion measure of the closure traversal: how many keys of `U` are
not yet visited. -/
def countNew (U v : List String) : Nat :=
  (U.filter (fun x => decide (x ∉ v))).length

theorem countNew_le (U v : List String) : countNew U v ≤ U.length :=
  List.length_filter_le _ _

theorem countNew_mono (U : List String) {v w : List String} (h : v ⊆ w) :
    countNew U w ≤ countNew U v := by
  unfold countNew
  rw [← List.countP_eq_length_filter, ← List.countP_eq_length_filter]
  apply List.countP_mono_left
  intro a _ ha
  simp only [decide_eq_true_eq] at *
  intro hv
  exact ha (h hv)

theorem countNew_lt {U v : List String} {key : String} (hU : key ∈ U) (hv : key ∉ v) :
    countNew U (key :: v) < countNew U v := by
  unfold countNew
  have hsub : ∀ x ∈ U,
      (decide (x ∉ (key :: v))) = (decide (x ≠ key) && decide (x ∉ v)) := by
    intro x _
    by_cases h1 : x = key <;> by_cases h2 : x ∈ v <;> simp [h1, h2, List.mem_cons]
  rw [List.filter_congr hsub, ← List.filter_filter]
  apply List.length_filter_lt_length_iff_exists.mpr
  refine ⟨key, ?_, ?_⟩
  · simp [List.mem_filter, hU, hv]
  · simp

namespace Graph

/-- The one-step function folded by `add_dependencies_recursive`. -/
def adrF (g : Graph) (m : Nat) (w : List String) (d : String) : List String :=
  add_dependencies_recursive g m d w

theorem adr_fold_aux (g : Graph) (U : List String) (m : Nat) (key : String) (v : List String)
    (hadr : ∀ (d : String) (w : List String), d ∈ U → countNew U w < m →
      w ⊆ add_dependencies_recursive g m d w ∧
      d ∈ add_dependencies_recursive g m d w ∧
      (∀ n ∈ add_dependencies_recursive g m d w,
        n ∈ w ∨ ∀ e ∈ g.dependencies_of n, e ∈ add_dependencies_recursive g m d w) ∧
      (∀ n ∈ add_dependencies_recursive g m d w,
        n ∈ w ∨ Relation.ReflTransGen (DepEdge g) d n) ∧
      (w.Nodup → (add_dependencies_recursive g m d w).Nodup))
    (hdepsU : ∀ x, ∀ d ∈ g.dependencies_of x, d ∈ U) :
    ∀ (ds : List String), (∀ d ∈ ds, d ∈ g.dependencies_of key) →
    ∀ (w : List String), (key :: v) ⊆ w → countNew U w < m →
      (∀ n ∈ w, n ∈ (key :: v) ∨ ∀ e ∈ g.dependencies_of n, e ∈ w) →
      (∀ n ∈ w, n ∈ v ∨ Relation.ReflTransGen (DepEdge g) key n) →
      w ⊆ ds.foldl (adrF g m) w ∧
      (∀ d ∈ ds, d ∈ ds.foldl (adrF g m) w) ∧
      (∀ n ∈ ds.foldl (adrF g m) w,
        n ∈ (key :: v) ∨ ∀ e ∈ g.dependencies_of n, e ∈ ds.foldl (adrF g m) w) ∧
      (∀ n ∈ ds.foldl (adrF g m) w, n ∈ v ∨ Relation.ReflTransGen (DepEdge g) key n) ∧
      (w.Nodup → (ds.foldl (adrF g m) w).Nodup) := by
  intro ds
  induction ds with
  | nil =>
    intro _ w _ _ hclosed hreach
    refine ⟨List.Subset.refl _, by simp, ?_, ?_, fun h => h⟩
    · intro n hn; exact hclosed n hn
    · intro n hn; exact hreach n hn
  | cons d ds ih =>
    intro hds w hkw hfw hclosed hreach
    have hdU : d ∈ U := hdepsU key d (hds d (by simp))
    obtain ⟨hsub₂, hmem₂, hclosed₂, hreach₂, hnodup₂⟩ := hadr d w hdU hfw
    set w₂ := add_dependencies_recursive g m d w with hw₂
    have hkw₂ : (key :: v) ⊆ w₂ := List.Subset.trans hkw hsub₂
    have hfw₂ : countNew U w₂ < m := lt_of_le_of_lt (countNew_mono U hsub₂) hfw
    have hclosed' : ∀ n ∈ w₂, n ∈ (key :: v) ∨ ∀ e ∈ g.dependencies_of n, e ∈ w₂ := by
      intro n hn
      rcases hclosed₂ n hn with hw | hcl
      · rcases hclosed n hw with hk | hcl
        · exact Or.inl hk
        · exact Or.inr (fun e he => hsub₂ (hcl e he))
      · exact Or.inr hcl
    have hreach' : ∀ n ∈ w₂, n ∈ v ∨ Relation.ReflTransGen (DepEdge g) key n := by
      intro n hn
      rcases hreach₂ n hn with hw | hrt
      · exact hreach n hw
      · exact Or.inr (Relation.ReflTransGen.head (hds d (by simp)) hrt)
    have hds' : ∀ e ∈ ds, e ∈ g.dependencies_of key := fun e he => hds e (by simp [he])
    obtain ⟨qsub, qmem, qclosed, qreach, qnodup⟩ := ih hds' w₂ hkw₂ hfw₂ hclosed' hreach'
    have hfold : (d :: ds).foldl (adrF g m) w = ds.foldl (adrF g m) w₂ := by
      simp [List.foldl_cons, adrF, hw₂]
    rw [hfold]
    refine ⟨List.Subset.trans hsub₂ qsub, ?_, qclosed, qreach, ?_⟩
    · intro e he
      rcases List.mem_cons.mp he with rfl | he'
      · exact qsub hmem₂
      · exact qmem e he'
    · intro hw
      exact qnodup (hnodup₂ hw)

/-- Main specification of `_add_dependencies_recursive`: with enough fuel
it extends `visited` monotonically with `key` and nodes reachable from
`key`, every newly added node has all its dependencies in the result, and
duplicate-freeness is preserved. -/
theorem adr_spec (g : Graph) (U : List String)
    (hdeps : ∀ x, ∀ d ∈ g.dependencies_of x, d ∈ U) :
    ∀ (fuel : Nat) (key : String) (v : List String), key ∈ U → countNew U v < fuel →
      v ⊆ add_dependencies_recursive g fuel key v ∧
      key ∈ add_dependencies_recursive g fuel key v ∧
      (∀ n ∈ add_dependencies_recursive g fuel key v,
        n ∈ v ∨ ∀ e ∈ g.dependencies_of n, e ∈ add_dependencies_recursive g fuel key v) ∧
      (∀ n ∈ add_dependencies_recursive g fuel key v,
        n ∈ v ∨ Relation.ReflTransGen (DepEdge g) key n) ∧
      (v.Nodup → (add_dependencies_recursive g fuel key v).Nodup) := by
  intro fuel
  induction fuel with
  | zero => intro key v _ hf; omega
  | succ m ih =>
    intro key v hkU hf
    by_cases hkv : key ∈ v
    · have hres : add_dependencies_recursive g (m + 1) key v = v := by
        simp [add_dependencies_recursive, hkv]
      rw [hres]
      refine ⟨List.Subset.refl _, hkv, ?_, ?_, fun h => h⟩
      · intro n hn; exact Or.inl hn
      · intro n hn; exact Or.inl hn
    · have hres : add_dependencies_recursive g (m + 1) key v =
          (g.dependencies_of key).foldl (adrF g m) (key :: v) := by
        rw [show (adrF g m) = fun w d => add_dependencies_recursive g m d w from rfl]
        simp [add_dependencies_recursive, hkv]
      have hbase_closed : ∀ n ∈ (key :: v),
          n ∈ (key :: v) ∨ ∀ e ∈ g.dependencies_of n, e ∈ (key :: v) :=
        fun n hn => Or.inl hn
      have hbase_reach : ∀ n ∈ (key :: v),
          n ∈ v ∨ Relation.ReflTransGen (DepEdge g) key n := by
        intro n hn
        rcases List.mem_cons.mp hn with rfl | hv
        · exact Or.inr Relation.ReflTransGen.refl
        · exact Or.inl hv
      have hfcons : countNew U (key :: v) < m :=
        lt_of_lt_of_le (countNew_lt hkU hkv) (Nat.lt_succ_iff.mp hf)
      obtain ⟨qsub, qmem, qclosed, qreach, qnodup⟩ :=
        adr_fold_aux g U m key v (fun d w hd hw => ih d w hd hw) hdeps
          (g.dependencies_of key) (fun d hd => hd)
          (key :: v) (List.Subset.refl _) hfcons hbase_closed hbase_reach
      rw [hres]
      refine ⟨?_, ?_, ?_, ?_, ?_⟩
      · exact List.Subset.trans (List.subset_cons_self key v) qsub
      · exact qsub (by simp)
      · intro n hn
        rcases qclosed n hn with hk | hcl
        · rcases List.mem_cons.mp hk with rfl | hv
          · exact Or.inr (fun e he => qmem e he)
          · exact Or.inl hv
        · exact Or.inr hcl
      · exact qreach
      · intro hv
        exact qnodup (List.nodup_cons.mpr ⟨hkv, hv⟩)

end Graph

theorem alookup_mem {α : Type} {l : List (String × α)} {k : String} {v : α}
    (h : alookup l k = some v) : (k, v) ∈ l := by
  induction l with
  | nil => simp [alookup] at h
  | cons p rest ih =>
    obtain ⟨pk, pv⟩ := p
    rw [alookup] at h
    by_cases hk : pk = k
    · rw [if_pos hk] at h
      obtain rfl := Option.some.inj h
      subst hk
      exact List.mem_cons_self _ _
    · rw [if_neg hk] at h
      exact List.mem_cons_of_mem _ (ih h)

theorem alookup_append {α : Type} (l1 l2 : List (String × α)) (k : String) :
    alookup (l1 ++ l2) k =
      match alookup l1 k with
      | some v => some v
      | none => alookup l2 k := by
  induction l1 with
  | nil => simp [alookup]
  | cons p rest ih =>
    obtain ⟨pk, pv⟩ := p
    by_cases hk : pk = k
    · simp [alookup, hk]
    · simp only [List.cons_append, alookup, if_neg hk]
      exact ih

theorem alookup_eq_none {α : Type} (l : List (String × α)) (k : String) :
    alookup l k = none ↔ k ∉ l.map Prod.fst := by
  induction l with
  | nil => simp [alookup]
  | cons p rest ih =>
    obtain ⟨pk, pv⟩ := p
    by_cases hk : pk = k
    · simp [alookup, hk]
    · simp only [alookup, if_neg hk, List.map_cons, List.mem_cons]
      rw [ih]
      constructor
      · intro h hc
        rcases hc with hc | hc
        · exact hk hc.symm
        · exact h hc
      · intro h hc
        exact h (Or.inr hc)

theorem alookup_map_replace {α : Type} (k : String) (v : α) (l : List (String × α)) :
    ∀ k', alookup (l.map (fun p => if p.1 = k then (k, v) else p)) k' =
      (alookup l k').map (fun w => if k' = k then v else w) := by
  induction l with
  | nil => intro k'; simp [alookup]
  | cons p rest ih =>
    intro k'
    obtain ⟨pk, pv⟩ := p
    simp only [List.map_cons]
    by_cases hpk : pk = k
    · subst hpk
      rw [show (if ((pk, pv) : String × α).1 = pk then (pk, v) else (pk, pv)) = (pk, v)
        from by simp]
      by_cases hk' : pk = k'
      · subst hk'
        simp [alookup]
      · simp [alookup, hk', ih k']
    · rw [show (if ((pk, pv) : String × α).1 = k then (k, v) else (pk, pv)) = (pk, pv)
        from by simp [hpk]]
      by_cases hk' : pk = k'
      · subst hk'
        simp [alookup, hpk]
      · simp [alookup, hk', ih k']

theorem alookup_ainsert {α : Type} (l : List (String × α)) (k k' : String) (v : α) :
    alookup (ainsert l k v) k' = if k' = k then some v else alookup l k' := by
  unfold ainsert
  by_cases hs : (alookup l k).isSome
  · rw [if_pos hs, alookup_map_replace]
    by_cases hk' : k' = k
    · subst hk'
      obtain ⟨w, hw⟩ := Option.isSome_iff_exists.mp hs
      simp [hw]
    · cases hl : alookup l k' <;> simp [hk']
  · rw [if_neg hs, alookup_append]
    have hnone := Option.not_isSome_iff_eq_none.mp hs
    by_cases hk' : k' = k
    · subst hk'
      rw [hnone]
      simp [alookup]
    · cases hl : alookup l k' with
      | some w => simp [hk']
      | none =>
        simp only [alookup, if_neg (fun hc : k = k' => hk' hc.symm), if_neg hk']

theorem alookup_ainsert_self {α : Type} (l : List (String × α)) (k : String) (v : α) :
    alookup (ainsert l k v) k = some v := by
  rw [alookup_ainsert]
  simp

theorem alookup_ainsert_ne {α : Type} (l : List (String × α)) (k k' : String) (v : α)
    (h : k' ≠ k) : alookup (ainsert l k v) k' = alookup l k' := by
  rw [alookup_ainsert]
  simp [h]

theorem alookup_aerase {α : Type} (l : List (String × α)) (k k' : String) :
    alookup (aerase l k) k' = if k' = k then none else alookup l k' := by
  unfold aerase
  induction l with
  | nil => simp [alookup]
  | cons p rest ih =>
    obtain ⟨pk, pv⟩ := p
    rw [List.filter_cons]
    by_cases hpk : pk = k
    · subst hpk
      rw [show (decide (((pk, pv) : String × α).1 ≠ pk) = false) from by simp]
      simp only [Bool.false_eq_true, if_false]
      rw [ih]
      by_cases hk' : k' = pk
      · simp [hk']
      · have hne : ¬ pk = k' := fun hc => hk' hc.symm
        simp [alookup, hk', hne]
    · rw [show (decide (((pk, pv) : String × α).1 ≠ k) = true) from by simp [hpk]]
      simp only [if_true]
      by_cases hk' : pk = k'
      · subst hk'
        simp [alookup, hpk]
      · simp only [alookup, if_neg hk']
        exact ih

theorem alookup_aerase_self {α : Type} (l : List (String × α)) (k : String) :
    alookup (aerase l k) k = none := by
  rw [alookup_aerase]
  simp

theorem alookup_aerase_ne {α : Type} (l : List (String × α)) (k k' : String)
    (h : k' ≠ k) : alookup (aerase l k) k' = alookup l k' := by
  rw [alookup_aerase]
  simp [h]

theorem mem_flat_sources {l : List (String × List (String × Hesiod.Conn))}
    {p : String × List (String × Hesiod.Conn)} (hp : p ∈ l)
    {pc : String × Hesiod.Conn} (hpc : pc ∈ p.2) :
    pc.2.source_node ∈ l.foldr
      (fun (p : String × List (String × Hesiod.Conn)) (acc : List String) =>
        p.2.map (fun pc => pc.2.source_node) ++ acc) [] := by
  induction l with
  | nil => simp at hp
  | cons q rest ih =>
    simp only [List.foldr_cons]
    rcases List.mem_cons.mp hp with rfl | hp'
    · exact List.mem_append_left _ (List.mem_map.mpr ⟨pc, hpc, rfl⟩)
    · exact List.mem_append_right _ (ih hp')

namespace Graph

theorem nodeKeys_subset_allKeys (g : Graph) : g.nodeKeys ⊆ g.allKeys := by
  intro x hx
  unfold allKeys
  rw [List.mem_dedup]
  exact List.mem_append_left _ (List.mem_append_left _ hx)

theorem deps_subset_allKeys (g : Graph) :
    ∀ x, ∀ d ∈ g.dependencies_of x, d ∈ g.allKeys := by
  intro x d hd
  unfold dependencies_of at hd
  rw [List.mem_dedup] at hd
  obtain ⟨pc, hpc, rfl⟩ := List.mem_map.mp hd
  unfold inputs_for at hpc
  cases hlk : alookup g.connections x with
  | none => rw [hlk] at hpc; simp at hpc
  | some inner =>
    rw [hlk] at hpc
    simp only [Option.getD_some] at hpc
    have hmem : (x, inner) ∈ g.connections := alookup_mem hlk
    unfold allKeys
    rw [List.mem_dedup]
    exact List.mem_append_right _ (mem_flat_sources hmem hpc)

theorem closure_fold_spec (g : Graph) (targets0 : List String) :
    ∀ (ts v : List String),
      ts ⊆ g.allKeys → ts ⊆ targets0 →
      (∀ n ∈ v, ∀ e ∈ g.dependencies_of n, e ∈ v) →
      (∀ n ∈ v, ∃ r ∈ targets0, Relation.ReflTransGen (DepEdge g) r n) →
      v.Nodup →
      v ⊆ ts.foldl (fun v k => add_dependencies_recursive g (g.allKeys.length + 1) k v) v ∧
      (∀ t ∈ ts,
        t ∈ ts.foldl (fun v k => add_dependencies_recursive g (g.allKeys.length + 1) k v) v) ∧
      (∀ n ∈ ts.foldl (fun v k => add_dependencies_recursive g (g.allKeys.length + 1) k v) v,
        ∀ e ∈ g.dependencies_of n,
          e ∈ ts.foldl (fun v k => add_dependencies_recursive g (g.allKeys.length + 1) k v) v) ∧
      (∀ n ∈ ts.foldl (fun v k => add_dependencies_recursive g (g.allKeys.length + 1) k v) v,
        ∃ r ∈ targets0, Relation.ReflTransGen (DepEdge g) r n) ∧
      (ts.foldl (fun v k => add_dependencies_recursive g (g.allKeys.length + 1) k v) v).Nodup := by
  intro ts
  induction ts with
  | nil =>
    intro v _ _ hclosed hreach hnodup
    exact ⟨List.Subset.refl _, by simp, hclosed, hreach, hnodup⟩
  | cons t ts ih =>
    intro v hU h0 hclosed hreach hnodup
    have htU : t ∈ g.allKeys := hU (by simp)
    have hfuel : countNew g.allKeys v < g.allKeys.length + 1 :=
      Nat.lt_succ_of_le (countNew_le _ _)
    obtain ⟨hsub, hmem, hclosed₁, hreach₁, hnodup₁⟩ :=
      adr_spec g g.allKeys (deps_subset_allKeys g) (g.allKeys.length + 1) t v htU hfuel
    set w₁ := add_dependencies_recursive g (g.allKeys.length + 1) t v with hw₁
    have hclosed' : ∀ n ∈ w₁, ∀ e ∈ g.dependencies_of n, e ∈ w₁ := by
      intro n hn e he
      rcases hclosed₁ n hn with hv | hcl
      · exact hsub (hclosed n hv e he)
      · exact hcl e he
    have hreach' : ∀ n ∈ w₁, ∃ r ∈ targets0, Relation.ReflTransGen (DepEdge g) r n := by
      intro n hn
      rcases hreach₁ n hn with hv | hrt
      · exact hreach n hv
      · exact ⟨t, h0 (by simp), hrt⟩
    have hU' : ts ⊆ g.allKeys := fun x hx => hU (by simp [hx])
    have h0' : ts ⊆ targets0 := fun x hx => h0 (by simp [hx])
    obtain ⟨qsub, qmem, qclosed, qreach, qnodup⟩ :=
      ih w₁ hU' h0' hclosed' hreach' (hnodup₁ hnodup)
    have hfold : (t :: ts).foldl
        (fun v k => add_dependencies_recursive g (g.allKeys.length + 1) k v) v =
        ts.foldl (fun v k => add_dependencies_recursive g (g.allKeys.length + 1) k v) w₁ := by
      simp [List.foldl_cons, hw₁]
    rw [hfold]
    refine ⟨List.Subset.trans hsub qsub, ?_, qclosed, qreach, qnodup⟩
    intro x hx
    rcases List.mem_cons.mp hx with rfl | hx'
    · exact qsub hmem
    · exact qmem x hx'

/-- Membership in the collected visited set is exactly membership in the
transitive-dependency closure of the targets. -/
theorem closure_visited_iff (g : Graph) (targets : List String)
    (hts : targets ⊆ g.nodeKeys) :
    ∀ n, n ∈ g.closure_visited targets ↔ InClosure g targets n := by
  have hU : targets ⊆ g.allKeys :=
    fun x hx => nodeKeys_subset_allKeys g (hts hx)
  obtain ⟨_, hmem, hclosed, hreach, _⟩ :=
    closure_fold_spec g targets targets [] hU (List.Subset.refl _)
      (by simp) (by simp) List.nodup_nil
  intro n
  constructor
  · intro hn
    exact hreach n hn
  · rintro ⟨r, hr, hrt⟩
    induction hrt with
    | refl => exact hmem r hr
    | tail _ he ihm => exact hclosed _ ihm _ he

theorem closure_visited_nodup (g : Graph) (targets : List String)
    (hts : targets ⊆ g.nodeKeys) : (g.closure_visited targets).Nodup := by
  have hU : targets ⊆ g.allKeys :=
    fun x hx => nodeKeys_subset_allKeys g (hts hx)
  obtain ⟨_, _, _, _, hnd⟩ :=
    closure_fold_spec g targets targets [] hU (List.Subset.refl _)
      (by simp) (by simp) List.nodup_nil
  exact hnd

theorem closure_visited_closed (g : Graph) (targets : List String)
    (hts : targets ⊆ g.nodeKeys) :
    ∀ n ∈ g.closure_visited targets, ∀ e ∈ g.dependencies_of n,
      e ∈ g.closure_visited targets := by
  have hU : targets ⊆ g.allKeys :=
    fun x hx => nodeKeys_subset_allKeys g (hts hx)
  obtain ⟨_, _, hclosed, _, _⟩ :=
    closure_fold_spec g targets targets [] hU (List.Subset.refl _)
      (by simp) (by simp) List.nodup_nil
  exact hclosed

end Graph

/-! ### The Kahn sorter: success properties, failure properties -/

theorem static_order_ok_spec (deps : String → List String) :
    ∀ (fuel : Nat) (remaining acc out : List String),
      static_order deps fuel remaining acc = .ok out →
      remaining.Nodup →
      acc.reverse.Nodup →
      (∀ x ∈ acc, x ∉ remaining) →
      (∀ x ∈ acc, ∀ y ∈ remaining, y ∉ deps x) →
      acc.reverse.Pairwise (fun x y => y ∉ deps x) →
      (∀ x ∈ acc, x ∉ deps x) →
      out.Nodup ∧ out.Pairwise (fun x y => y ∉ deps x) ∧
      (∀ x ∈ out, x ∉ deps x) ∧ List.Perm out (acc.reverse ++ remaining) := by
  intro fuel
  induction fuel with
  | zero =>
    intro remaining acc out h hrn han hdisj hcross hpw hself
    rw [static_order] at h
    by_cases he : remaining.isEmpty
    · rw [if_pos he] at h
      obtain rfl := Except.ok.inj h
      obtain rfl := List.isEmpty_iff.mp he
      refine ⟨han, hpw, ?_, by simp⟩
      intro x hx
      exact hself x (List.mem_reverse.mp hx)
    · rw [if_neg he] at h
      exact absurd h (by simp)
  | succ m ih =>
    intro remaining acc out h hrn han hdisj hcross hpw hself
    rw [static_order] at h
    by_cases he : remaining.isEmpty
    · rw [if_pos he] at h
      obtain rfl := Except.ok.inj h
      obtain rfl := List.isEmpty_iff.mp he
      refine ⟨han, hpw, ?_, by simp⟩
      intro x hx
      exact hself x (List.mem_reverse.mp hx)
    · rw [if_neg he] at h
      simp only at h
      set p : String → Bool :=
        fun n => (deps n).all (fun d => decide (d ∉ remaining)) with hp
      set ready := remaining.filter p with hready
      by_cases hre : ready.isEmpty
      · rw [if_pos hre] at h
        exact absurd h (by simp)
      · rw [if_neg hre] at h
        -- facts about ready
        have hready_mem : ∀ x ∈ ready, x ∈ remaining ∧ p x = true := by
          intro x hx
          exact List.mem_filter.mp hx
        have hpx : ∀ x, p x = true → ∀ d ∈ deps x, d ∉ remaining := by
          intro x hx d hd
          have := List.all_eq_true.mp hx d hd
          simpa using this
        set remaining' := remaining.filter (fun n => decide (n ∉ ready)) with hrem'
        set acc' := ready.reverse ++ acc with hacc'
        have hacc'_rev : acc'.reverse = acc.reverse ++ ready := by
          simp [hacc']
        have hrem'_sub : remaining' ⊆ remaining := fun x hx => (List.mem_filter.mp hx).1
        have hready_pw : ready.Pairwise (fun x y => y ∉ deps x) := by
          apply List.pairwise_of_forall_mem_list
          intro x hx y hy hxy
          obtain ⟨hxr, hpxx⟩ := hready_mem x hx
          obtain ⟨hyr, _⟩ := hready_mem y hy
          exact hpx x hpxx y hxy hyr
        have hready_sub : ready ⊆ remaining := fun x hx => (List.mem_filter.mp hx).1
        have hdisj' : ∀ x ∈ acc.reverse, x ∉ ready :=
          fun x hx hxr => hdisj x (List.mem_reverse.mp hx) (hready_sub hxr)
        obtain ⟨qn, qpw, qself, qperm⟩ := ih remaining' acc' out h
          (List.Nodup.filter _ hrn)
          (by
            rw [hacc'_rev]
            apply List.Nodup.append han (List.Nodup.filter _ hrn) ?_
            intro x hx hxr
            exact hdisj' x hx hxr)
          (by
            intro x hx
            rcases List.mem_append.mp hx with hx1 | hx2
            · intro hxm
              obtain ⟨hxr, hpxx⟩ := hready_mem x (List.mem_reverse.mp hx1)
              have := List.mem_filter.mp hxm
              simp only [decide_eq_true_eq] at this
              exact this.2 (List.mem_reverse.mp hx1)
            · intro hxm
              exact hdisj x hx2 (hrem'_sub hxm))
          (by
            intro x hx y hy
            rcases List.mem_append.mp hx with hx1 | hx2
            · obtain ⟨hxr, hpxx⟩ := hready_mem x (List.mem_reverse.mp hx1)
              exact fun hyd => hpx x hpxx y hyd (hrem'_sub hy)
            · exact hcross x hx2 y (hrem'_sub hy))
          (by
            rw [hacc'_rev]
            apply List.pairwise_append.mpr
            refine ⟨hpw, hready_pw, ?_⟩
            intro x hx y hy
            exact hcross x (List.mem_reverse.mp hx) y (hready_sub hy))
          (by
            intro x hx
            rcases List.mem_append.mp hx with hx1 | hx2
            · obtain ⟨hxr, hpxx⟩ := hready_mem x (List.mem_reverse.mp hx1)
              exact fun hc => hpx x hpxx x hc hxr
            · exact hself x hx2)
        refine ⟨qn, qpw, qself, ?_⟩
        have hpart : List.Perm (ready ++ remaining') remaining := by
          have hcongr : remaining.filter (fun n => decide (n ∉ ready)) =
              remaining.filter (fun n => !p n) := by
            apply List.filter_congr
            intro x hx
            by_cases hxr : x ∈ ready
            · have := (hready_mem x hxr).2
              simp [hxr, this]
            · have : ¬ p x = true := fun hpxx => hxr (List.mem_filter.mpr ⟨hx, hpxx⟩)
              simp [hxr, this]
          rw [hrem', hcongr, hready]
          exact List.filter_append_perm p remaining
        have h1 : acc'.reverse ++ remaining' = acc.reverse ++ (ready ++ remaining') := by
          rw [hacc'_rev, List.append_assoc]
        have h2 : List.Perm (acc.reverse ++ (ready ++ remaining'))
            (acc.reverse ++ remaining) := List.Perm.append_left _ hpart
        exact (h1 ▸ qperm).trans h2

theorem static_order_error_spec (deps : String → List String) :
    ∀ (fuel : Nat) (remaining acc rem : List String),
      remaining.length ≤ fuel →
      static_order deps fuel remaining acc = .error rem →
      rem ≠ [] ∧ ∀ n ∈ rem, ∃ d ∈ deps n, d ∈ rem := by
  intro fuel
  induction fuel with
  | zero =>
    intro remaining acc rem hlen h
    interval_cases hrl : remaining.length
    · have : remaining = [] := List.length_eq_zero.mp hrl
      subst this
      rw [static_order] at h
      simp at h
  | succ m ih =>
    intro remaining acc rem hlen h
    rw [static_order] at h
    by_cases he : remaining.isEmpty
    · rw [if_pos he] at h
      exact absurd h (by simp)
    · rw [if_neg he] at h
      simp only at h
      set p : String → Bool :=
        fun n => (deps n).all (fun d => decide (d ∉ remaining)) with hp
      set ready := remaining.filter p with hready
      by_cases hre : ready.isEmpty
      · rw [if_pos hre] at h
        obtain rfl := Except.error.inj h
        refine ⟨fun hc => he (by simp [hc]), ?_⟩
        intro n hn
        have hnp : ¬ p n = true := by
          intro hpn
          have : n ∈ ready := List.mem_filter.mpr ⟨hn, hpn⟩
          rw [List.isEmpty_iff.mp hre] at this
          simp at this
        rw [hp] at hnp
        simp only [List.all_eq_true, decide_eq_true_eq] at hnp
        push_neg at hnp
        obtain ⟨d, hd, hdm⟩ := hnp
        exact ⟨d, hd, hdm⟩
      · rw [if_neg hre] at h
        have hready_ne : ready ≠ [] := fun hc => hre (by simp [hc])
        obtain ⟨x, hx⟩ := List.exists_mem_of_ne_nil ready hready_ne
        have hxr : x ∈ remaining := (List.mem_filter.mp hx).1
        have hlt : (remaining.filter (fun n => decide (n ∉ ready))).length <
            remaining.length := by
          apply List.length_filter_lt_length_iff_exists.mpr
          exact ⟨x, hxr, by simp [hx]⟩
        exact ih _ _ _ (by omega) h

theorem indexOf_lt_of_pairwise {R : String → String → Prop} {l : List String}
    (hpw : l.Pairwise R) {x y : String} (hx : x ∈ l) (hy : y ∈ l)
    (hnR : ¬ R x y) (hne : x ≠ y) : l.indexOf y < l.indexOf x := by
  have hxl : l.indexOf x < l.length := List.indexOf_lt_length.mpr hx
  have hyl : l.indexOf y < l.length := List.indexOf_lt_length.mpr hy
  have hgx : l.get ⟨l.indexOf x, hxl⟩ = x := List.indexOf_get hxl
  have hgy : l.get ⟨l.indexOf y, hyl⟩ = y := List.indexOf_get hyl
  rcases lt_trichotomy (l.indexOf x) (l.indexOf y) with hlt | heq | hgt
  · exfalso
    have := List.pairwise_iff_get.mp hpw ⟨l.indexOf x, hxl⟩ ⟨l.indexOf y, hyl⟩ hlt
    rw [hgx, hgy] at this
    exact hnR this
  · exfalso
    apply hne
    rw [← hgx, ← hgy]
    exact congrArg l.get (Fin.ext heq)
  · exact hgt

/-- In a list that respects all dependency edges and has no self-edges, no
member lies on a dependency cycle. -/
theorem order_no_cycle {deps : String → List String} {out : List String}
    (hpw : out.Pairwise (fun x y => y ∉ deps x))
    (hself : ∀ x ∈ out, x ∉ deps x)
    (hclosed : ∀ x ∈ out, ∀ d ∈ deps x, d ∈ out) :
    ∀ a b, Relation.TransGen (fun a b => b ∈ deps a) a b → a ∈ out →
      b ∈ out ∧ out.indexOf b < out.indexOf a := by
  have base : ∀ a b, b ∈ deps a → a ∈ out →
      b ∈ out ∧ out.indexOf b < out.indexOf a := by
    intro a b hab ha
    have hb : b ∈ out := hclosed a ha b hab
    refine ⟨hb, ?_⟩
    apply indexOf_lt_of_pairwise hpw ha hb
    · intro hR
      exact hR hab
    · intro haeq
      subst haeq
      exact hself a ha hab
  intro a b h
  induction h with
  | single hab => exact base _ _ hab
  | tail hab hbc ih =>
    intro ha
    obtain ⟨hm, him⟩ := ih ha
    obtain ⟨hb, hib⟩ := base _ _ hbc hm
    exact ⟨hb, by omega⟩

/-- If every node of a nonempty set has a dependency inside the set, the
dependency relation has a cycle. -/
theorem cycle_of_stuck (deps : String → List String) (S : List String) (hne : S ≠ [])
    (h : ∀ n ∈ S, ∃ d ∈ deps n, d ∈ S) :
    ∃ m, Relation.TransGen (fun a b => b ∈ deps a) m m := by
  classical
  -- a successor function inside S
  have hF : ∀ x : {x // x ∈ S}, ∃ d, d ∈ deps x.1 ∧ d ∈ S := by
    intro x
    obtain ⟨d, hd, hdS⟩ := h x.1 x.2
    exact ⟨d, hd, hdS⟩
  let F : {x // x ∈ S} → {x // x ∈ S} :=
    fun x => ⟨(hF x).choose, (hF x).choose_spec.2⟩
  have hFdep : ∀ x : {x // x ∈ S}, (F x).1 ∈ deps x.1 :=
    fun x => (hF x).choose_spec.1
  let x₀ : {x // x ∈ S} := ⟨S.head hne, List.head_mem hne⟩
  let seq : Nat → {x // x ∈ S} := fun n => F^[n] x₀
  have hchain : ∀ i j, i < j →
      Relation.TransGen (fun a b => b ∈ deps a) (seq i).1 (seq j).1 := by
    intro i j
    induction j with
    | zero => omega
    | succ k ihk =>
      intro hij
      have hstep : Relation.TransGen (fun a b => b ∈ deps a) (seq k).1 (seq (k+1)).1 := by
        apply Relation.TransGen.single
        have : seq (k+1) = F (seq k) := Function.iterate_succ_apply' F k x₀
        rw [this]
        exact hFdep (seq k)
      by_cases hik : i = k
      · subst hik; exact hstep
      · have : i < k := by omega
        exact Relation.TransGen.trans (ihk this) hstep
  -- pigeonhole over S
  have hmaps : ∀ i : Fin (S.length + 1), (seq i.1).1 ∈ S.toFinset := by
    intro i
    rw [List.mem_toFinset]
    exact (seq i.1).2
  have hcard : S.toFinset.card < (Finset.univ : Finset (Fin (S.length + 1))).card := by
    have h1 : S.toFinset.card ≤ S.length := S.toFinset_card_le
    simp only [Finset.card_univ, Fintype.card_fin]
    omega
  obtain ⟨i, -, j, -, hij, heq⟩ :=
    Finset.exists_ne_map_eq_of_card_lt_of_maps_to hcard (fun a _ => hmaps a)
  rcases Ne.lt_or_lt hij with hlt | hlt
  · exact ⟨(seq j.1).1, by
      have := hchain i.1 j.1 hlt
      rwa [heq] at this⟩
  · exact ⟨(seq i.1).1, by
      have := hchain j.1 i.1 hlt
      rwa [← heq] at this⟩

namespace Graph

theorem wf_deps_in_nodeKeys {g : Graph} (hwf : WellFormed g) :
    ∀ a, ∀ b ∈ g.dependencies_of a, b ∈ g.nodeKeys := by
  intro a b hb
  unfold dependencies_of at hb
  rw [List.mem_dedup] at hb
  obtain ⟨pc, hpc, rfl⟩ := List.mem_map.mp hb
  unfold inputs_for at hpc
  cases hlk : alookup g.connections a with
  | none => rw [hlk] at hpc; simp at hpc
  | some inner =>
    rw [hlk] at hpc
    simp only [Option.getD_some] at hpc
    have hmem := alookup_mem hlk
    exact (hwf.2.2 _ hmem).2.2 pc hpc

theorem sorter_on_closure_ok (g : Graph) (T : List String) (hT : T ⊆ g.nodeKeys)
    {out : List String}
    (h : static_order g.dependencies_of ((g.closure_visited T).length + 1)
        (g.closure_visited T) [] = .ok out) :
    out.Nodup ∧ (∀ n, n ∈ out ↔ InClosure g T n) ∧
    (∀ t ∈ out, ∀ s ∈ g.dependencies_of t, out.indexOf s < out.indexOf t) ∧
    (∀ n, InClosure g T n → ¬ Relation.TransGen (DepEdge g) n n) := by
  have hvn := closure_visited_nodup g T hT
  have hvc := closure_visited_closed g T hT
  have hvi := closure_visited_iff g T hT
  obtain ⟨hnd, hpw, hself, hperm⟩ :=
    static_order_ok_spec g.dependencies_of _ _ [] out h hvn (by simp) (by simp)
      (by simp) (by simp) (by simp)
  have hmem_out : ∀ n, n ∈ out ↔ n ∈ g.closure_visited T := by
    intro n
    have := hperm.mem_iff (a := n)
    simpa using this
  have hmem_iff : ∀ n, n ∈ out ↔ InClosure g T n :=
    fun n => (hmem_out n).trans (hvi n)
  have hclosed_out : ∀ x ∈ out, ∀ d ∈ g.dependencies_of x, d ∈ out := by
    intro x hx d hd
    exact (hmem_out d).mpr (hvc x ((hmem_out x).mp hx) d hd)
  refine ⟨hnd, hmem_iff, ?_, ?_⟩
  · intro t ht s hs
    have hsout : s ∈ out := hclosed_out t ht s hs
    apply indexOf_lt_of_pairwise hpw ht hsout
    · intro hR
      exact hR hs
    · intro hts
      subst hts
      exact hself t ht hs
  · intro n hn hcyc
    have hnout : n ∈ out := (hmem_iff n).mpr hn
    have hno := order_no_cycle hpw hself hclosed_out n n hcyc hnout
    omega

theorem sorter_on_closure_error (g : Graph) (T : List String) {rem : List String}
    (h : static_order g.dependencies_of ((g.closure_visited T).length + 1)
        (g.closure_visited T) [] = .error rem) :
    ∃ m, Relation.TransGen (DepEdge g) m m := by
  obtain ⟨hne, hstuck⟩ :=
    static_order_error_spec g.dependencies_of _ _ [] rem (by omega) h
  exact cycle_of_stuck _ rem hne hstuck

theorem proceed_spec (g : Graph) (hacyc : Acyclic g) (T : List String)
    (hT : T ⊆ g.nodeKeys) :
    ∃ out, (match static_order g.dependencies_of ((g.closure_visited T).length + 1)
        (g.closure_visited T) [] with
      | .ok order => Except.ok order
      | .error rem => Except.error (GraphErr.cycle rem)) = .ok out ∧
      out.Nodup ∧ (∀ n, n ∈ out ↔ InClosure g T n) ∧
      (∀ t ∈ out, ∀ s ∈ g.dependencies_of t, out.indexOf s < out.indexOf t) := by
  cases hso : static_order g.dependencies_of ((g.closure_visited T).length + 1)
      (g.closure_visited T) [] with
  | error rem =>
    exfalso
    obtain ⟨m, hm⟩ := sorter_on_closure_error g T hso
    exact hacyc m hm
  | ok out =>
    obtain ⟨h1, h2, h3, _⟩ := sorter_on_closure_ok g T hT hso
    exact ⟨out, rfl, h1, h2, h3⟩

theorem resolved_targets_subset (g : Graph) (limit_to : Option (List String)) :
    g.resolved_targets limit_to ⊆ g.nodeKeys := by
  cases limit_to with
  | none => exact fun x hx => hx
  | some lt =>
    intro x hx
    unfold resolved_targets at hx
    rw [List.mem_dedup] at hx
    have := List.mem_filter.mp hx
    simpa using this.2

theorem inClosure_nodeKeys_iff {g : Graph} (hwf : WellFormed g) :
    ∀ n, InClosure g g.nodeKeys n ↔ n ∈ g.nodeKeys := by
  intro n
  constructor
  · rintro ⟨r, hr, hrt⟩
    induction hrt with
    | refl => exact hr
    | tail _ he ihm => exact wf_deps_in_nodeKeys hwf _ _ he
  · intro hn
    exact ⟨n, hn, Relation.ReflTransGen.refl⟩

end Graph

/-- **C1**: for every well-formed graph without cycles and every requested
node set, `topological_order(limit_to)` succeeds with a duplicate-free
order whose members are exactly the transitive-dependency closure of the
resolved requested nodes, in which, for every connection `s → t` inside
that closure (`s ∈ dependencies_of t`), `s` appears strictly before `t`;
with `limit_to` unspecified the order covers exactly the nodes of the
graph. -/
theorem C1_topological_order (g : Graph) (hwf : WellFormed g) (hacyc : Acyclic g)
    (limit_to : Option (List String)) :
    ∃ out, g.topological_order limit_to = .ok out ∧ out.Nodup ∧
      (∀ n, n ∈ out ↔ InClosure g (g.resolved_targets limit_to) n) ∧
      (∀ t ∈ out, ∀ s ∈ g.dependencies_of t, out.indexOf s < out.indexOf t) ∧
      (limit_to = none → ∀ n, n ∈ out ↔ n ∈ g.nodeKeys) := by
  cases limit_to with
  | none =>
    obtain ⟨out, hmatch, hnd, hiff, hidx⟩ :=
      Graph.proceed_spec g hacyc g.nodeKeys (fun x hx => hx)
    refine ⟨out, ?_, hnd, hiff, hidx, ?_⟩
    · unfold Graph.topological_order
      exact hmatch
    · intro _ n
      exact (hiff n).trans (Graph.inClosure_nodeKeys_iff hwf n)
  | some lt =>
    by_cases hre : ((lt.filter (· ∈ g.nodeKeys)).dedup).isEmpty
    · refine ⟨[], ?_, List.nodup_nil, ?_, by simp, by simp⟩
      · unfold Graph.topological_order
        simp only [hre, if_true]
      · intro n
        simp only [List.not_mem_nil, false_iff]
        rintro ⟨r, hr, -⟩
        have hr' : r ∈ (List.filter (fun x => decide (x ∈ g.nodeKeys)) lt).dedup := hr
        rw [List.isEmpty_iff.mp hre] at hr'
        simp at hr'
    · have hT : ((lt.filter (· ∈ g.nodeKeys)).dedup) ⊆ g.nodeKeys := by
        intro x hx
        rw [List.mem_dedup] at hx
        have := List.mem_filter.mp hx
        simpa using this.2
      obtain ⟨out, hmatch, hnd, hiff, hidx⟩ :=
        Graph.proceed_spec g hacyc ((lt.filter (· ∈ g.nodeKeys)).dedup) hT
      refine ⟨out, ?_, hnd, hiff, hidx, by simp⟩
      unfold Graph.topological_order
      simp only [hre, if_false]
      exact hmatch

/-- A graph whose dependency map is everywhere empty has no cycle. -/
theorem acyclic_of_no_deps {g : Graph} (h : ∀ x, g.dependencies_of x = []) :
    Acyclic g := by
  intro n hcyc
  cases hcyc with
  | single he =>
    have he' : n ∈ g.dependencies_of n := he
    rw [h] at he'
    exact List.not_mem_nil _ he'
  | tail _ he =>
    rename_i m _
    have he' : n ∈ g.dependencies_of m := he
    rw [h] at he'
    exact List.not_mem_nil _ he'

/-- A concrete one-node graph (as built by `add_node` on a fresh graph). -/
def gA : Graph :=
  { name := "g", metadata := [], nodes := [⟨"a", "type.a", none, [], []⟩],
    connections := [], dependents := [], dirty := ["a"] }

theorem gA_no_deps : ∀ x, gA.dependencies_of x = [] := fun _ => rfl

/-- Witness for C1 at the concrete one-node graph `gA`. -/
theorem C1_topological_order_witness :
    (WellFormed gA ∧ Acyclic gA) ∧
    (∃ out, gA.topological_order none = .ok out ∧ out.Nodup ∧
      (∀ n, n ∈ out ↔ InClosure gA (gA.resolved_targets none) n) ∧
      (∀ t ∈ out, ∀ s ∈ gA.dependencies_of t, out.indexOf s < out.indexOf t) ∧
      ((none : Option (List String)) = none → ∀ n, n ∈ out ↔ n ∈ gA.nodeKeys)) :=
  ⟨⟨by decide, acyclic_of_no_deps gA_no_deps⟩,
    C1_topological_order gA (by decide) (acyclic_of_no_deps gA_no_deps) none⟩

/-! ### Scheduler embedding (`runtime.py`) -/

/-- A node output mapping, port name to value. -/
abbrev Outputs := List (String × Value)

/-- The failures `GraphScheduler.evaluate` can raise: `SchedulerError`
variants, the propagated `GraphError` cycle, and the uncaught Python
exceptions of the lookups (`KeyError`, `RegistryError`). Each constructor
carries the data interpolated into the Python message. -/
inductive EvalErr where
  | cycle : List String → EvalErr
  | missingOutputs : String → String → EvalErr
  | missingPort : String → String → EvalErr
  | cacheMiss : String → EvalErr
  | nodeFailed : String → String → EvalErr
  | nonMapping : String → EvalErr
  | unknownType : String → EvalErr
  | keyError : String → EvalErr
deriving DecidableEq

/-- `RuntimePerformance` from `configuration.py` (defaults included). -/
structure RuntimePerformance where
  enable_multiprocessing : Bool := true
  enable_memoization : Bool := true
  worker_concurrency : Nat := 0

/-- `AppConfiguration`, reduced to the part the scheduler reads. -/
structure AppConfiguration where
  performance : RuntimePerformance := {}

/-- `RuntimeContext` from `runtime.py`. -/
structure RuntimeContext where
  graph : Graph
  configuration : Option AppConfiguration := none
  state : List (String × Value) := []

/-- `RuntimeContext.enable_memoization`: `True` when no configuration is
attached, otherwise the configured flag. -/
def RuntimeContext.enable_memoization (ctx : RuntimeContext) : Bool :=
  match ctx.configuration with
  | none => true
  | some cfg => cfg.performance.enable_memoization

/-- A registered node implementation (`NodeDefinition.handler`); handlers
are pure functions of node, inputs and context that either return a value
or raise (`Except.error` carries the exception message). -/
structure NodeDefinition where
  handler : GNode → Outputs → RuntimeContext → Except String Value

/-- `NodeRegistry`: a dispatch table keyed by lower-cased type name. -/
abbrev Registry := List (String × NodeDefinition)

/-- `NodeRegistry.get`, as a partial lookup (`RegistryError` is raised by
the caller when absent). -/
def registry_get (reg : Registry) (node_type : String) : Option NodeDefinition :=
  alookup reg node_type.toLower

/-- `ExecutionCache` from `runtime.py`. -/
structure ExecutionCache where
  values : List (String × Outputs) := []
  signatures : List (String × String) := []

namespace ExecutionCache

/-- `ExecutionCache.get`. -/
def get (c : ExecutionCache) (k : String) : Option Outputs :=
  alookup c.values k

/-- `ExecutionCache.store`. -/
def store (c : ExecutionCache) (k : String) (signature : String)
    (outputs : Outputs) : ExecutionCache :=
  { values := ainsert c.values k outputs,
    signatures := ainsert c.signatures k signature }

/-- `ExecutionCache.is_valid`: exact equality of the stored signature. -/
def is_valid (c : ExecutionCache) (k : String) (signature : String) : Bool :=
  alookup c.signatures k == some signature

/-- `ExecutionCache.invalidate`. -/
def invalidate (c : ExecutionCache) (k : String) : ExecutionCache :=
  { values := aerase c.values k, signatures := aerase c.signatures k }

/-- `ExecutionCache.clear`. -/
def clear (_ : ExecutionCache) : ExecutionCache := {}

end ExecutionCache

/-- Python `sorted(..., key=str)` over dict items: stable sort by key. -/
def sortByKey (l : List (String × Value)) : List (String × Value) :=
  List.insertionSort (fun a b => a.1 ≤ b.1) l

mutual

/-- `_normalise_value`: primitives pass through, dicts are key-sorted and
recursively normalised, sequences normalised in order, numpy arrays
replaced by a dict of shape, dtype tag and content digest (`sha1` is the
abstract content-hash parameter of the embedding). -/
def normalise_value (sha1 : List Nat → String) : Value → Value
  | .vnone => .vnone
  | .vbool b => .vbool b
  | .vint n => .vint n
  | .vstr s => .vstr s
  | .vdict kvs => .vdict (sortByKey (normalise_kvs sha1 kvs))
  | .vlist xs => .vlist (normalise_list sha1 xs)
  | .vnd shape dtype buf =>
    .vdict [("__ndarray__", .vbool true),
            ("shape", .vlist (shape.map (fun n => Value.vint (Int.ofNat n)))),
            ("dtype", .vstr dtype),
            ("digest", .vstr (sha1 buf))]

def normalise_list (sha1 : List Nat → String) : List Value → List Value
  | [] => []
  | x :: xs => normalise_value sha1 x :: normalise_list sha1 xs

def normalise_kvs (sha1 : List Nat → String) :
    List (String × Value) → List (String × Value)
  | [] => []
  | (k, v) :: rest => (k, normalise_value sha1 v) :: normalise_kvs sha1 rest

end

def joinComma : List String → String
  | [] => ""
  | [s] => s
  | s :: rest => s ++ "," ++ joinComma rest

mutual

/-- The `sort_keys=True` aspect of `json.dumps`: recursively sort every
dictionary of the rendered value by key (stable, key-preserving, so
sorting before rendering is the same as sorting while rendering). -/
def deep_sort : Value → Value
  | .vnone => .vnone
  | .vbool b => .vbool b
  | .vint n => .vint n
  | .vstr s => .vstr s
  | .vlist xs => .vlist (deep_sort_list xs)
  | .vdict kvs => .vdict (sortByKey (deep_sort_kvs kvs))
  | .vnd shape dtype buf => .vnd shape dtype buf

def deep_sort_list : List Value → List Value
  | [] => []
  | x :: xs => deep_sort x :: deep_sort_list xs

def deep_sort_kvs : List (String × Value) → List (String × Value)
  | [] => []
  | (k, v) :: rest => (k, deep_sort v) :: deep_sort_kvs rest

end

mutual

/-- Plain JSON rendering of an embedded value (string escaping is not
modelled; it does not affect determinism). A leftover array value would
make the real `json.dumps` raise and is rendered as an opaque marker
here; `_make_signature` only serialises normalised values, which contain
none. -/
def serialise_value : Value → String
  | .vnone => "null"
  | .vbool b => if b then "true" else "false"
  | .vint n => toString n
  | .vstr s => "\"" ++ s ++ "\""
  | .vlist xs => "[" ++ joinComma (serialise_list xs) ++ "]"
  | .vdict kvs => "\x7b" ++ joinComma (serialise_kvs kvs) ++ "\x7d"
  | .vnd _ _ _ => "<unserialisable ndarray>"

def serialise_list : List Value → List String
  | [] => []
  | x :: xs => serialise_value x :: serialise_list xs

def serialise_kvs : List (String × Value) → List String
  | [] => []
  | (k, v) :: rest =>
    ("\"" ++ k ++ "\":" ++ serialise_value v) :: serialise_kvs rest

end

/-- `json.dumps(..., sort_keys=True)`: deterministic rendering with every
dictionary sorted by key. -/
def json_dumps_sorted (v : Value) : String := serialise_value (deep_sort v)

/-- `_make_signature`: hash of the deterministic serialisation of
`(node key, node type, normalised parameters, normalised inputs)`;
`sha256` is the abstract payload-hash parameter of the embedding. -/
def make_signature (sha256 : String → String) (sha1 : List Nat → String)
    (node : GNode) (inputs : Outputs) : String :=
  sha256 (json_dumps_sorted (.vdict
    [("node", .vstr node.key),
     ("type", .vstr node.type),
     ("parameters", normalise_value sha1 (.vdict node.parameters)),
     ("inputs", normalise_value sha1 (.vdict inputs))]))

/-- Per-pass state of one `evaluate` call: the pass-local `results`, the
shared cache, the graph's dirty set, and observability logs (handler
invocations made and progress calls issued). -/
structure LoopState where
  results : List (String × Outputs) := []
  cache : ExecutionCache := {}
  dirty : List String := []
  invoked : List String := []
  plog : List (Nat × Nat × String) := []

/-- Python truthiness of `current_outputs or cached_outputs` in
`_collect_inputs`: `None` and the empty mapping are both falsy. -/
def orFalsy (current cached : Option Outputs) : Option Outputs :=
  match current with
  | some o => if o.isEmpty then cached else some o
  | none => cached

/-- The loop body of `GraphScheduler._collect_inputs` over the remaining
connected input ports. -/
def collect_inputs_go (node_key : String) (st : LoopState) :
    List (String × Conn) → Except EvalErr Outputs
  | [] => .ok []
  | (port_name, connection) :: rest =>
    match orFalsy (alookup st.results connection.source_node)
        (st.cache.get connection.source_node) with
    | none => .error (.missingOutputs connection.source_node node_key)
    | some source_outputs =>
      match alookup source_outputs connection.source_port with
      | none => .error (.missingPort connection.source_node connection.source_port)
      | some v =>
        (collect_inputs_go node_key st rest).map (fun ins => (port_name, v) :: ins)

/-- `GraphScheduler._collect_inputs`. -/
def collect_inputs (g : Graph) (node_key : String) (st : LoopState) :
    Except EvalErr Outputs :=
  collect_inputs_go node_key st (g.inputs_for node_key)

/-- One iteration of the `evaluate` loop for `node_key` at 1-based
position `index` of `total`: gather inputs, compute the signature, decide
cache reuse, reuse or invoke the handler, store into the cache when
memoizing, record results, clear the dirty flag and report progress. -/
def eval_step (sha256 : String → String) (sha1 : List Nat → String)
    (reg : Registry) (g : Graph) (ctx : RuntimeContext) (force : Bool)
    (total index : Nat) (node_key : String) (st : LoopState) :
    Except EvalErr LoopState :=
  match g.findNode node_key with
  | none => .error (.keyError node_key)
  | some node =>
    match collect_inputs g node_key st with
    | .error e => .error e
    | .ok input_values =>
      let signature := make_signature sha256 sha1 node input_values
      let use_cache := !force && ctx.enable_memoization &&
        !(st.dirty.contains node_key) && st.cache.is_valid node_key signature
      if use_cache then
        match st.cache.get node_key with
        | none => .error (.cacheMiss node_key)
        | some outputs =>
          .ok { st with
            results := ainsert st.results node_key outputs,
            dirty := st.dirty.filter (· ≠ node_key),
            plog := st.plog ++ [(index, total, node_key)] }
      else
        match registry_get reg node.type with
        | none => .error (.unknownType node.type)
        | some defn =>
          match defn.handler node input_values ctx with
          | .error msg => .error (.nodeFailed node.key msg)
          | .ok outv =>
            match outv with
            | .vdict outputs =>
              let st₁ := { st with invoked := st.invoked ++ [node_key] }
              let st₂ := if ctx.enable_memoization then
                  { st₁ with cache := st₁.cache.store node_key signature outputs }
                else st₁
              .ok { st₂ with
                results := ainsert st₂.results node_key outputs,
                dirty := st₂.dirty.filter (· ≠ node_key),
                plog := st₂.plog ++ [(index, total, node_key)] }
            | _ => .error (.nonMapping node.key)

/-- The `for index, node_key in enumerate(execution_order, start=1)` loop
of `evaluate`; on failure the state reached before the failing step is
returned alongside the error. -/
def evalLoop (sha256 : String → String) (sha1 : List Nat → String)
    (reg : Registry) (g : Graph) (ctx : RuntimeContext) (force : Bool)
    (total : Nat) : List String → Nat → LoopState → LoopState × Option EvalErr
  | [], _, st => (st, none)
  | k :: rest, index, st =>
    match eval_step sha256 sha1 reg g ctx force total index k st with
    | .error e => (st, some e)
    | .ok st' => evalLoop sha256 sha1 reg g ctx force total rest (index + 1) st'

/-- The outcome of one `evaluate` call: the returned mapping or the raised
error, together with the final state of the shared cache, the dirty set
and the observability logs. -/
structure EvalOut where
  result : Except EvalErr (List (String × Outputs))
  state : LoopState

/-- `GraphScheduler.evaluate`: default the context, resolve the requested
nodes (unknown keys silently dropped, empty resolution short-circuits),
compute the dependency-closed execution order, then run the loop and
return the outputs of the requested nodes only. -/
def evaluate (sha256 : String → String) (sha1 : List Nat → String)
    (reg : Registry) (g : Graph) (targets : Option (List String))
    (context : Option RuntimeContext) (force : Bool)
    (cache0 : ExecutionCache) : EvalOut :=
  let ctx := match context with
    | none => { graph := g : RuntimeContext }
    | some c => c
  let result_nodes := match targets with
    | none => g.nodeKeys
    | some ts => ts.filter (· ∈ g.nodeKeys)
  if result_nodes.isEmpty then
    { result := .ok [], state := { cache := cache0, dirty := g.dirty } }
  else
    match g.topological_order (some result_nodes) with
    | .error (.cycle rem) =>
      { result := .error (.cycle rem), state := { cache := cache0, dirty := g.dirty } }
    | .error (.duplicateNode k) =>
      { result := .error (.keyError k), state := { cache := cache0, dirty := g.dirty } }
    | .error (.unknownNode k) =>
      { result := .error (.keyError k), state := { cache := cache0, dirty := g.dirty } }
    | .ok execution_order =>
      let total := execution_order.length
      let st0 : LoopState :=
        { cache := cache0, dirty := g.dirty, plog := [(0, total, "")] }
      match evalLoop sha256 sha1 reg g ctx force total execution_order 1 st0 with
      | (st, some e) => { result := .error e, state := st }
      | (st, none) =>
        { result := .ok (result_nodes.foldl
            (fun acc n => match alookup st.results n with
              | some o => ainsert acc n o
              | none => acc) []),
          state := st }

/-! ### Characterisation of one evaluate step -/

/-- The four cache-reuse conditions of `evaluate`, as propositions: no
force, memoization enabled, node not dirty, stored signature equal to the
freshly computed one. -/
def ReuseConds (sha256 : String → String) (sha1 : List Nat → String)
    (ctx : RuntimeContext) (force : Bool) (node : GNode) (k : String)
    (ins : Outputs) (st : LoopState) : Prop :=
  force = false ∧ ctx.enable_memoization = true ∧ k ∉ st.dirty ∧
    alookup st.cache.signatures k = some (make_signature sha256 sha1 node ins)

theorem use_cache_iff (sha256 : String → String) (sha1 : List Nat → String)
    (ctx : RuntimeContext) (force : Bool) (node : GNode) (k : String)
    (ins : Outputs) (st : LoopState) :
    ((!force && ctx.enable_memoization && !(st.dirty.contains k) &&
      st.cache.is_valid k (make_signature sha256 sha1 node ins)) = true) ↔
    ReuseConds sha256 sha1 ctx force node k ins st := by
  unfold ReuseConds ExecutionCache.is_valid
  simp [Bool.and_eq_true, and_assoc, beq_iff_eq]

/-- The post-state of a cache-reuse step. -/
def reuseState (total index : Nat) (k : String) (outs : Outputs)
    (st : LoopState) : LoopState :=
  { st with
    results := ainsert st.results k outs,
    dirty := st.dirty.filter (· ≠ k),
    plog := st.plog ++ [(index, total, k)] }

/-- The post-state of a handler-invocation step. -/
def invokeState (sha256 : String → String) (sha1 : List Nat → String)
    (ctx : RuntimeContext) (total index : Nat) (node : GNode) (k : String)
    (ins outs : Outputs) (st : LoopState) : LoopState :=
  let st₁ := { st with invoked := st.invoked ++ [k] }
  let st₂ := if ctx.enable_memoization then
      { st₁ with cache := st₁.cache.store k (make_signature sha256 sha1 node ins) outs }
    else st₁
  { st₂ with
    results := ainsert st₂.results k outs,
    dirty := st₂.dirty.filter (· ≠ k),
    plog := st₂.plog ++ [(index, total, k)] }

theorem eval_step_reuse (sha256 : String → String) (sha1 : List Nat → String)
    (reg : Registry) (g : Graph) (ctx : RuntimeContext) (force : Bool)
    (total index : Nat) (k : String) (st : LoopState) (node : GNode)
    (ins outs : Outputs)
    (hfind : g.findNode k = some node)
    (hcollect : collect_inputs g k st = .ok ins)
    (hconds : ReuseConds sha256 sha1 ctx force node k ins st)
    (houts : st.cache.get k = some outs) :
    eval_step sha256 sha1 reg g ctx force total index k st =
      .ok (reuseState total index k outs st) := by
  unfold eval_step
  rw [hfind, hcollect]
  simp only
  rw [if_pos ((use_cache_iff sha256 sha1 ctx force node k ins st).mpr hconds)]
  rw [houts]
  rfl

theorem eval_step_cache_miss_error (sha256 : String → String)
    (sha1 : List Nat → String) (reg : Registry) (g : Graph)
    (ctx : RuntimeContext) (force : Bool) (total index : Nat) (k : String)
    (st : LoopState) (node : GNode) (ins : Outputs)
    (hfind : g.findNode k = some node)
    (hcollect : collect_inputs g k st = .ok ins)
    (hconds : ReuseConds sha256 sha1 ctx force node k ins st)
    (houts : st.cache.get k = none) :
    eval_step sha256 sha1 reg g ctx force total index k st =
      .error (.cacheMiss k) := by
  unfold eval_step
  rw [hfind, hcollect]
  simp only
  rw [if_pos ((use_cache_iff sha256 sha1 ctx force node k ins st).mpr hconds)]
  rw [houts]

theorem eval_step_invoke (sha256 : String → String) (sha1 : List Nat → String)
    (reg : Registry) (g : Graph) (ctx : RuntimeContext) (force : Bool)
    (total index : Nat) (k : String) (st : LoopState) (node : GNode)
    (ins outs : Outputs) (defn : NodeDefinition)
    (hfind : g.findNode k = some node)
    (hcollect : collect_inputs g k st = .ok ins)
    (hnconds : ¬ ReuseConds sha256 sha1 ctx force node k ins st)
    (hreg : registry_get reg node.type = some defn)
    (hhandler : defn.handler node ins ctx = .ok (.vdict outs)) :
    eval_step sha256 sha1 reg g ctx force total index k st =
      .ok (invokeState sha256 sha1 ctx total index node k ins outs st) := by
  unfold eval_step
  rw [hfind, hcollect]
  simp only
  rw [if_neg (fun hc => hnconds ((use_cache_iff sha256 sha1 ctx force node k ins st).mp hc))]
  rw [hreg]
  simp only
  rw [hhandler]
  rfl

/-- Forward characterisation: every successful step is either a pure cache
reuse (exactly under `ReuseConds`, leaving the cache and the invocation
log untouched) or a handler invocation. -/
theorem eval_step_cases (sha256 : String → String) (sha1 : List Nat → String)
    (reg : Registry) (g : Graph) (ctx : RuntimeContext) (force : Bool)
    (total index : Nat) (k : String) (st st' : LoopState)
    (h : eval_step sha256 sha1 reg g ctx force total index k st = .ok st') :
    ∃ node ins, g.findNode k = some node ∧ collect_inputs g k st = .ok ins ∧
      ((ReuseConds sha256 sha1 ctx force node k ins st ∧
        ∃ outs, st.cache.get k = some outs ∧
          st' = reuseState total index k outs st) ∨
       (¬ ReuseConds sha256 sha1 ctx force node k ins st ∧
        ∃ defn outs, registry_get reg node.type = some defn ∧
          defn.handler node ins ctx = .ok (.vdict outs) ∧
          st' = invokeState sha256 sha1 ctx total index node k ins outs st)) := by
  unfold eval_step at h
  cases hfind : g.findNode k with
  | none => rw [hfind] at h; exact absurd h (by simp)
  | some node =>
    rw [hfind] at h
    cases hcollect : collect_inputs g k st with
    | error e => rw [hcollect] at h; exact absurd h (by simp)
    | ok ins =>
      rw [hcollect] at h
      simp only at h
      refine ⟨node, ins, rfl, rfl, ?_⟩
      by_cases hc : (!force && ctx.enable_memoization && !(st.dirty.contains k) &&
          st.cache.is_valid k (make_signature sha256 sha1 node ins)) = true
      · rw [if_pos hc] at h
        left
        refine ⟨(use_cache_iff sha256 sha1 ctx force node k ins st).mp hc, ?_⟩
        cases houts : st.cache.get k with
        | none => rw [houts] at h; exact absurd h (by simp)
        | some outs =>
          rw [houts] at h
          simp only at h
          refine ⟨outs, rfl, ?_⟩
          have := Except.ok.inj h
          exact this.symm
      · rw [if_neg hc] at h
        right
        refine ⟨fun hcc => hc ((use_cache_iff sha256 sha1 ctx force node k ins st).mpr hcc), ?_⟩
        cases hreg : registry_get reg node.type with
        | none => rw [hreg] at h; exact absurd h (by simp)
        | some defn =>
          rw [hreg] at h
          simp only at h
          cases hhandler : defn.handler node ins ctx with
          | error msg => rw [hhandler] at h; exact absurd h (by simp)
          | ok outv =>
            rw [hhandler] at h
            simp only at h
            cases outv with
            | vdict outs =>
              refine ⟨defn, outs, rfl, hhandler, ?_⟩
              have := Except.ok.inj h
              exact this.symm
            | vnone => exact absurd h (by simp)
            | vbool b => exact absurd h (by simp)
            | vint n => exact absurd h (by simp)
            | vstr s => exact absurd h (by simp)
            | vlist xs => exact absurd h (by simp)
            | vnd a b c => exact absurd h (by simp)

theorem invokeState_invoked (sha256 : String → String) (sha1 : List Nat → String)
    (ctx : RuntimeContext) (total index : Nat) (node : GNode) (k : String)
    (ins outs : Outputs) (st : LoopState) :
    (invokeState sha256 sha1 ctx total index node k ins outs st).invoked =
      st.invoked ++ [k] := by
  unfold invokeState
  by_cases hm : ctx.enable_memoization = true <;> simp [hm]

/-- **C2**: during `evaluate`, for each node of the execution order the
step reuses the cached output exactly when all four conditions hold
(force off, memoization enabled, node not in the dirty set, stored
signature equal to the freshly computed one); reuse records the cached
outputs while leaving the cache and the invocation log untouched; under
the four conditions with no stored outputs the step raises the
cache-inconsistency `SchedulerError` instead of recomputing; and when any
condition fails, every successful step is a handler invocation. -/
theorem C2_cache_decision (sha256 : String → String) (sha1 : List Nat → String)
    (reg : Registry) (g : Graph) (ctx : RuntimeContext) (force : Bool)
    (total index : Nat) (k : String) (st : LoopState) (node : GNode)
    (ins : Outputs)
    (hfind : g.findNode k = some node)
    (hcollect : collect_inputs g k st = .ok ins) :
    (ReuseConds sha256 sha1 ctx force node k ins st →
      (∀ outs, st.cache.get k = some outs →
        eval_step sha256 sha1 reg g ctx force total index k st =
          .ok (reuseState total index k outs st) ∧
        (reuseState total index k outs st).invoked = st.invoked ∧
        (reuseState total index k outs st).cache = st.cache ∧
        alookup (reuseState total index k outs st).results k = some outs) ∧
      (st.cache.get k = none →
        eval_step sha256 sha1 reg g ctx force total index k st =
          .error (.cacheMiss k))) ∧
    (¬ ReuseConds sha256 sha1 ctx force node k ins st →
      ∀ st', eval_step sha256 sha1 reg g ctx force total index k st = .ok st' →
        st'.invoked = st.invoked ++ [k]) := by
  constructor
  · intro hconds
    constructor
    · intro outs houts
      refine ⟨eval_step_reuse sha256 sha1 reg g ctx force total index k st node ins outs
        hfind hcollect hconds houts, rfl, rfl, ?_⟩
      unfold reuseState
      exact alookup_ainsert_self _ _ _
    · intro houts
      exact eval_step_cache_miss_error sha256 sha1 reg g ctx force total index k st node
        ins hfind hcollect hconds houts
  · intro hnconds st' h
    obtain ⟨node', ins', hfind', hcollect', hcases⟩ :=
      eval_step_cases sha256 sha1 reg g ctx force total index k st st' h
    obtain rfl : node' = node := by
      rw [hfind] at hfind'
      exact (Option.some.inj hfind').symm
    obtain rfl : ins' = ins := by
      rw [hcollect] at hcollect'
      exact (Except.ok.inj hcollect').symm
    rcases hcases with ⟨hconds, -⟩ | ⟨-, defn, outs, -, -, rfl⟩
    · exact absurd hconds hnconds
    · exact invokeState_invoked _ _ _ _ _ _ _ _ _ _

/-- A one-entry registry with a constant handler for the witness graphs. -/
def cReg : Registry :=
  [("type.a", ⟨fun _ _ _ => .ok (.vdict [("out", .vint 1)])⟩)]

/-- Witness for C2 at the concrete one-node graph `gA` with an empty
loop state. -/
theorem C2_cache_decision_witness :
    gA.findNode "a" = some ⟨"a", "type.a", none, [], []⟩ ∧
    collect_inputs gA "a" {} = .ok [] ∧
    ((ReuseConds (fun s => s) (fun _ => "h") { graph := gA } false
        ⟨"a", "type.a", none, [], []⟩ "a" [] {} →
      (∀ outs, ExecutionCache.get ({} : LoopState).cache "a" = some outs →
        eval_step (fun s => s) (fun _ => "h") cReg gA { graph := gA } false 1 1 "a" {} =
          .ok (reuseState 1 1 "a" outs {}) ∧
        (reuseState 1 1 "a" outs {}).invoked = ({} : LoopState).invoked ∧
        (reuseState 1 1 "a" outs {}).cache = ({} : LoopState).cache ∧
        alookup (reuseState 1 1 "a" outs {}).results "a" = some outs) ∧
      (ExecutionCache.get ({} : LoopState).cache "a" = none →
        eval_step (fun s => s) (fun _ => "h") cReg gA { graph := gA } false 1 1 "a" {} =
          .error (.cacheMiss "a"))) ∧
    (¬ ReuseConds (fun s => s) (fun _ => "h") { graph := gA } false
        ⟨"a", "type.a", none, [], []⟩ "a" [] {} →
      ∀ st', eval_step (fun s => s) (fun _ => "h") cReg gA { graph := gA } false 1 1 "a" {} =
          .ok st' →
        st'.invoked = ({} : LoopState).invoked ++ ["a"])) :=
  ⟨rfl, rfl, C2_cache_decision (fun s => s) (fun _ => "h") cReg gA { graph := gA } false
    1 1 "a" {} ⟨"a", "type.a", none, [], []⟩ [] rfl rfl⟩

/-- **C10**: a call to `evaluate` with no context, or whose context has no
configuration, treats memoization as enabled: the default context reports
`enable_memoization = true`, the call is identical to one with the
explicitly constructed default context, and each handler-invocation step
under such a context writes both the signature and the outputs into the
execution cache (the reuse decision consults the same flag, see the cache
decision characterisation). -/
theorem C10_default_memoization :
    (∀ g : Graph, RuntimeContext.enable_memoization { graph := g } = true) ∧
    (∀ ctx : RuntimeContext, ctx.configuration = none →
      ctx.enable_memoization = true) ∧
    (∀ (sha256 : String → String) (sha1 : List Nat → String) (reg : Registry)
      (g : Graph) (targets : Option (List String)) (force : Bool)
      (cache0 : ExecutionCache),
      evaluate sha256 sha1 reg g targets none force cache0 =
      evaluate sha256 sha1 reg g targets (some { graph := g }) force cache0) ∧
    (∀ (sha256 : String → String) (sha1 : List Nat → String)
      (ctx : RuntimeContext) (total index : Nat) (node : GNode) (k : String)
      (ins outs : Outputs) (st : LoopState),
      ctx.configuration = none →
      alookup (invokeState sha256 sha1 ctx total index node k ins outs st).cache.signatures
          k = some (make_signature sha256 sha1 node ins) ∧
      alookup (invokeState sha256 sha1 ctx total index node k ins outs st).cache.values
          k = some outs) := by
  refine ⟨fun g => rfl, ?_, fun _ _ _ _ _ _ _ => rfl, ?_⟩
  · intro ctx hconf
    unfold RuntimeContext.enable_memoization
    rw [hconf]
  · intro sha256 sha1 ctx total index node k ins outs st hconf
    have hm : ctx.enable_memoization = true := by
      unfold RuntimeContext.enable_memoization
      rw [hconf]
    unfold invokeState
    simp only [hm, if_true]
    exact ⟨alookup_ainsert_self _ _ _, alookup_ainsert_self _ _ _⟩

/-- Witness for C10 at a concrete context and invocation state. -/
theorem C10_default_memoization_witness :
    RuntimeContext.enable_memoization { graph := gA } = true ∧
    ({ graph := gA : RuntimeContext }.configuration = none ∧
      alookup (invokeState (fun s => s) (fun _ => "h") { graph := gA } 1 1
        ⟨"a", "type.a", none, [], []⟩ "a" [] [] {}).cache.signatures "a" =
        some (make_signature (fun s => s) (fun _ => "h")
          ⟨"a", "type.a", none, [], []⟩ [])) :=
  ⟨C10_default_memoization.1 gA,
    rfl,
    (C10_default_memoization.2.2.2 (fun s => s) (fun _ => "h") { graph := gA } 1 1
      ⟨"a", "type.a", none, [], []⟩ "a" [] [] {} rfl).1⟩

/-! ### Reverse-index divergences (C5, C8) -/

/-- The empty graph, as constructed by `Graph(name=...)`. -/
def emptyG : Graph := { name := "g" }

/-- **C5** (divergence at the concrete failing input): after
`add a; add b; connect a.out → b.in; remove_node b`, the reverse index
still lists `b` as a dependent of `a` although no connection into `b`
remains (the node is gone): the dependents index is not the transpose of
the connections map after this mutation sequence. -/
theorem C5_dependents_not_transpose :
    ∃ g1 g2 g3 g4,
      emptyG.add_node ⟨"a", "type.a", none, [], []⟩ = .ok g1 ∧
      g1.add_node ⟨"b", "type.a", none, [], []⟩ = .ok g2 ∧
      g2.connect "a" "out" "b" "in" = .ok g3 ∧
      g3.remove_node "b" = .ok g4 ∧
      "b" ∈ g4.dependents_of "a" ∧
      g4.inputs_for "b" = [] ∧
      g4.findNode "b" = none := by
  refine ⟨_, _, _, _, rfl, rfl, rfl, rfl, ?_, rfl, rfl⟩
  decide

/-- Counterexample to **C8** as stated: removing a clean node does not
leave its key in the dirty set — the final `mark_dirty(key)` of
`remove_node` is guarded by node existence and the node is already gone. -/
theorem C8_counterexample :
    ∃ g1 g2,
      emptyG.add_node ⟨"a", "type.a", none, [], []⟩ = .ok g1 ∧
      (g1.clear_dirty "a").remove_node "a" = .ok g2 ∧
      "a" ∉ g2.dirty ∧ g2.dirty = [] := by
  refine ⟨_, _, rfl, rfl, ?_, rfl⟩
  decide

theorem foldl_mark_dirty_shape {β : Type} (t : String) :
    ∀ (l : List β) (g : Graph),
      (l.foldl (fun acc _ => Graph.mark_dirty acc t) g).nodes = g.nodes ∧
      (l.foldl (fun acc _ => Graph.mark_dirty acc t) g).connections = g.connections ∧
      (l.foldl (fun acc _ => Graph.mark_dirty acc t) g).dependents = g.dependents := by
  intro l
  induction l with
  | nil => intro g; exact ⟨rfl, rfl, rfl⟩
  | cons b rest ih =>
    intro g
    simp only [List.foldl_cons]
    obtain ⟨h1, h2, h3⟩ := ih (Graph.mark_dirty g t)
    rw [h1, h2, h3]
    unfold Graph.mark_dirty
    by_cases h : t ∈ g.nodeKeys <;> simp [h]

/-- The effect of `remove_node` on one incoming-connection entry: drop the
connections sourced at the removed node, and the whole entry when it
becomes empty. -/
def connFilter (k : String) (o : Option (List (String × Conn))) :
    Option (List (String × Conn)) :=
  if ((o.getD []).filter (fun pc => !(pc.2.source_node == k))).isEmpty then none
  else some ((o.getD []).filter (fun pc => !(pc.2.source_node == k)))

theorem connFilter_idem (k : String) (o : Option (List (String × Conn))) :
    connFilter k (connFilter k o) = connFilter k o := by
  unfold connFilter
  by_cases h : (((o.getD []).filter (fun pc => !(pc.2.source_node == k)))).isEmpty
  · simp [h]
  · simp only [h, Bool.false_eq_true, if_false, Option.getD_some]
    have hff : ((o.getD []).filter (fun pc => !(pc.2.source_node == k))).filter
        (fun pc => !(pc.2.source_node == k)) =
        (o.getD []).filter (fun pc => !(pc.2.source_node == k)) := by
      rw [List.filter_filter]
      apply List.filter_congr
      intro x _
      rw [Bool.and_self]
    rw [hff, if_neg (by simp [h])]

theorem connFilter_no_source (k : String) (o : Option (List (String × Conn)))
    {inner : List (String × Conn)} (h : connFilter k o = some inner) :
    ∀ pc ∈ inner, pc.2.source_node ≠ k := by
  unfold connFilter at h
  by_cases he : (((o.getD []).filter (fun pc => !(pc.2.source_node == k)))).isEmpty
  · rw [if_pos he] at h
    simp at h
  · rw [if_neg he] at h
    obtain rfl := Option.some.inj h
    intro pc hpc
    have := (List.mem_filter.mp hpc).2
    simpa using this

theorem alookup_remove_conns (k : String)
    (conns : List (String × List (String × Conn))) (t x : String) :
    alookup (Graph.remove_conns k conns t) x =
      if x = t then connFilter k (alookup conns t) else alookup conns x := by
  unfold Graph.remove_conns connFilter
  by_cases he : (((alookup conns t).getD []).filter
      (fun pc => !(pc.2.source_node == k))).isEmpty
  · rw [if_pos he, if_pos he]
    by_cases hx : x = t
    · subst hx
      rw [if_pos rfl]
      exact alookup_aerase_self _ _
    · rw [if_neg hx]
      exact alookup_aerase_ne _ _ _ hx
  · rw [if_neg he, if_neg he]
    by_cases hx : x = t
    · subst hx
      rw [if_pos rfl]
      exact alookup_ainsert_self _ _ _
    · rw [if_neg hx]
      exact alookup_ainsert_ne _ _ _ _ hx

theorem remove_target_deps_nodes (nk t : String) (g₁ : Graph) :
    (Graph.remove_target_deps nk t g₁).nodes = g₁.nodes := rfl

theorem remove_target_deps_connections (nk t : String) (g₁ : Graph) :
    (Graph.remove_target_deps nk t g₁).connections = g₁.connections := rfl

theorem remove_target_deps_dependents (nk t : String) (g₁ : Graph) :
    (Graph.remove_target_deps nk t g₁).dependents =
      ainsert g₁.dependents nk
        (((alookup g₁.dependents nk).getD []).filter (· ≠ t)) := rfl

theorem remove_node_target_shape (k : String) (g : Graph) (t : String) :
    (Graph.remove_node_target k g t).nodes = g.nodes ∧
    (∀ x, x ≠ k →
      alookup (Graph.remove_node_target k g t).dependents x = alookup g.dependents x) ∧
    (∀ x, alookup (Graph.remove_node_target k g t).connections x =
      if x = t then connFilter k (alookup g.connections t)
      else alookup g.connections x) := by
  obtain ⟨h1, h2, h3⟩ := foldl_mark_dirty_shape t
    ((((alookup g.connections t).getD []).filter (fun pc => pc.2.source_node == k)))
    { g with connections := Graph.remove_conns k g.connections t }
  unfold Graph.remove_node_target
  refine ⟨?_, ?_, ?_⟩
  · rw [remove_target_deps_nodes, h1]
  · intro x hx
    rw [remove_target_deps_dependents, alookup_ainsert_ne _ _ _ _ hx, h3]
  · intro x
    rw [remove_target_deps_connections, h2]
    exact alookup_remove_conns k g.connections t x

theorem remove_fold_shape (k : String) :
    ∀ (targets : List String) (g : Graph),
      ((targets.foldl (Graph.remove_node_target k) g).nodes = g.nodes) ∧
      (∀ x, x ≠ k →
        alookup (targets.foldl (Graph.remove_node_target k) g).dependents x =
          alookup g.dependents x) ∧
      (∀ x, alookup (targets.foldl (Graph.remove_node_target k) g).connections x =
        if x ∈ targets then connFilter k (alookup g.connections x)
        else alookup g.connections x) := by
  intro targets
  induction targets with
  | nil =>
    intro g
    refine ⟨rfl, fun x _ => rfl, fun x => ?_⟩
    simp
  | cons t ts ih =>
    intro g
    simp only [List.foldl_cons]
    obtain ⟨q1, q2, q3⟩ := ih (Graph.remove_node_target k g t)
    obtain ⟨p1, p2, p3⟩ := remove_node_target_shape k g t
    refine ⟨q1.trans p1, ?_, ?_⟩
    · intro x hx
      rw [q2 x hx, p2 x hx]
    · intro x
      rw [q3 x]
      by_cases hx : x = t
      · subst hx
        by_cases hxs : x ∈ ts
        · rw [if_pos hxs, p3 x, if_pos rfl, connFilter_idem]
          rw [if_pos (by simp)]
        · rw [if_neg hxs, p3 x, if_pos rfl]
          rw [if_pos (by simp)]
      · by_cases hxs : x ∈ ts
        · rw [if_pos hxs, p3 x, if_neg hx]
          rw [if_pos (by simp [hxs])]
        · rw [if_neg hxs, p3 x, if_neg hx]
          rw [if_neg (by simp [hx, hxs])]

/-- **C8 amended**: `remove_node(key)` fails with the unknown-node error
when the key is absent; otherwise — provided the reverse index lists every
target of a connection originating from the node, as a maintained index
must — it removes every connection that targets or originates from the
node, drops the node and its reverse-index entry, and its final
`mark_dirty` call is a no-op because the key has already been removed, so
the call itself does not add the removed key to the dirty set (marking the
result again also does nothing). -/
theorem C8_remove_node (g : Graph) (k : String) :
    (k ∉ g.nodeKeys → g.remove_node k = .error (.unknownNode k)) ∧
    (k ∈ g.nodeKeys →
      (∀ t, (∃ pc ∈ g.inputs_for t, pc.2.source_node = k) → t ∈ g.dependents_of k) →
      ∃ g', g.remove_node k = .ok g' ∧
        g'.findNode k = none ∧
        g'.inputs_for k = [] ∧
        alookup g'.dependents k = none ∧
        (∀ t, ∀ pc ∈ g'.inputs_for t, pc.2.source_node ≠ k) ∧
        g'.mark_dirty k = g') := by
  constructor
  · intro hk
    unfold Graph.remove_node
    rw [if_pos hk]
  · intro hk hcov
    obtain ⟨f1, f2, f3⟩ := remove_fold_shape k ((alookup g.dependents k).getD []) g
    unfold Graph.remove_node
    rw [if_neg (by simp [hk])]
    set g₁ := ((alookup g.dependents k).getD []).foldl (Graph.remove_node_target k) g
      with hg₁
    set g₂ : Graph := { g₁ with
      dependents := aerase g₁.dependents k,
      nodes := g₁.nodes.filter (fun n => n.key ≠ k),
      connections := aerase g₁.connections k } with hg₂
    have hknot : k ∉ g₂.nodeKeys := by
      intro hmem
      unfold Graph.nodeKeys at hmem
      obtain ⟨n, hn, hkey⟩ := List.mem_map.mp hmem
      rw [hg₂] at hn
      simp only [List.mem_filter] at hn
      have := hn.2
      simp [hkey] at this
    have hmark : Graph.mark_dirty g₂ k = g₂ := by
      unfold Graph.mark_dirty
      rw [if_neg hknot]
    refine ⟨g₂, by
      show Except.ok (Graph.mark_dirty g₂ k) = Except.ok g₂
      rw [hmark], ?_, ?_, ?_, ?_, hmark⟩
    · unfold Graph.findNode
      apply List.find?_eq_none.mpr
      intro n hn
      rw [hg₂] at hn
      simp only [List.mem_filter] at hn
      have := hn.2
      simp only [decide_eq_true_eq] at this
      simp [this]
    · unfold Graph.inputs_for
      rw [hg₂]
      simp only
      rw [alookup_aerase_self]
      rfl
    · rw [hg₂]
      simp only
      exact alookup_aerase_self _ _
    · intro t pc hpc
      unfold Graph.inputs_for at hpc
      rw [hg₂] at hpc
      simp only at hpc
      by_cases ht : t = k
      · subst ht
        rw [alookup_aerase_self] at hpc
        simp at hpc
      · rw [alookup_aerase_ne _ _ _ ht, f3 t] at hpc
        by_cases hts : t ∈ (alookup g.dependents k).getD []
        · rw [if_pos hts] at hpc
          cases hcf : connFilter k (alookup g.connections t) with
          | none => rw [hcf] at hpc; simp at hpc
          | some inner =>
            rw [hcf] at hpc
            simp only [Option.getD_some] at hpc
            exact connFilter_no_source k _ hcf pc hpc
        · rw [if_neg hts] at hpc
          intro hsrc
          apply hts
          exact hcov t ⟨pc, hpc, hsrc⟩

/-- The concrete two-node graph `a → b` produced by
`add a; add b; connect a.out → b.in` on a fresh graph. -/
def gAB : Graph :=
  { name := "g", metadata := [],
    nodes := [⟨"a", "type.a", none, [], []⟩, ⟨"b", "type.a", none, [], []⟩],
    connections := [("b", [("in", ⟨"a", "out"⟩)])],
    dependents := [("a", ["b"])],
    dirty := ["a", "b"] }

theorem gAB_cov : ∀ t, (∃ pc ∈ gAB.inputs_for t, pc.2.source_node = "a") →
    t ∈ gAB.dependents_of "a" := by
  intro t ht
  by_cases hb : "b" = t
  · subst hb
    decide
  · exfalso
    obtain ⟨pc, hpc, -⟩ := ht
    simp [gAB, Graph.inputs_for, alookup, hb] at hpc

/-- Witness for the amended C8 at the concrete graph `a → b`, removing
`a` (whose outgoing edge is correctly indexed). -/
theorem C8_remove_node_witness :
    ("a" ∈ gAB.nodeKeys ∧
      (∀ t, (∃ pc ∈ gAB.inputs_for t, pc.2.source_node = "a") →
        t ∈ gAB.dependents_of "a")) ∧
    (∃ g', gAB.remove_node "a" = .ok g' ∧
      g'.findNode "a" = none ∧
      g'.inputs_for "a" = [] ∧
      alookup g'.dependents "a" = none ∧
      (∀ t, ∀ pc ∈ g'.inputs_for t, pc.2.source_node ≠ "a") ∧
      g'.mark_dirty "a" = g') :=
  ⟨⟨by decide, gAB_cov⟩, (C8_remove_node gAB "a").2 (by decide) gAB_cov⟩

/-! ### Input gathering (C6) -/

/-- Graph `src → tgt` with one connection `tgt.in ← src.out`. -/
def c6g : Graph :=
  { name := "g", metadata := [],
    nodes := [⟨"src", "type.a", none, [], []⟩, ⟨"tgt", "type.a", none, [], []⟩],
    connections := [("tgt", [("in", ⟨"src", "out"⟩)])],
    dependents := [("src", ["tgt"])],
    dirty := [] }

/-- A pass state in which `src` has been produced in this pass with an
empty output mapping, while a stale cache entry for `src` still carries
a value on port `out`. -/
def c6st : LoopState :=
  { results := [("src", [])],
    cache := { values := [("src", [("out", .vint 7)])], signatures := [("src", "s")] },
    dirty := [], invoked := [], plog := [] }

/-- Counterexample to **C6** as stated: the source `src` HAS been produced
in this pass (first conjunct), yet the gathered value for `tgt.in` is the
stale cached value `7` (second conjunct) — the claim requires the value to
come from the pass results whenever the source was produced in this pass
(which here would raise the missing-output-port error, the pass result
having no port `out`). -/
theorem C6_counterexample :
    alookup c6st.results "src" = some [] ∧
    collect_inputs c6g "tgt" c6st = .ok [("in", .vint 7)] :=
  ⟨rfl, rfl⟩

/-- The amended per-port gathering rule, following the amended claim text:
the value comes from this pass's results when the source was produced in
this pass with a NON-EMPTY output mapping, otherwise from the cache; a
missing effective source raises the missing-dependency error naming
producer and consumer, a missing port on the effective source raises the
missing-output-port error naming producer and port. -/
def collect_port_amended (st : LoopState) (node_key : String) (conn : Conn) :
    Except EvalErr Value :=
  match (match alookup st.results conn.source_node with
    | some [] => ExecutionCache.get st.cache conn.source_node
    | some out => some out
    | none => ExecutionCache.get st.cache conn.source_node) with
  | none => .error (.missingOutputs conn.source_node node_key)
  | some source_outputs =>
    match alookup source_outputs conn.source_port with
    | none => .error (.missingPort conn.source_node conn.source_port)
    | some v => .ok v

/-- The amended gathering loop: apply the per-port rule to each connected
input port in order, stopping at the first failure. -/
def collect_inputs_amended (st : LoopState) (node_key : String) :
    List (String × Conn) → Except EvalErr Outputs
  | [] => .ok []
  | (port_name, connection) :: rest =>
    match collect_port_amended st node_key connection with
    | .error e => .error e
    | .ok v =>
      (collect_inputs_amended st node_key rest).map (fun ins => (port_name, v) :: ins)

theorem orFalsy_eq_amended (st : LoopState) (s : String) :
    orFalsy (alookup st.results s) (st.cache.get s) =
      match alookup st.results s with
      | some [] => ExecutionCache.get st.cache s
      | some out => some out
      | none => ExecutionCache.get st.cache s := by
  cases h : alookup st.results s with
  | none => rfl
  | some out =>
    cases out with
    | nil => simp [orFalsy]
    | cons a rest => simp [orFalsy]

/-- **C6 amended**: `_collect_inputs` implements exactly the amended
per-port rule — for every connected input port the value is taken from
this pass's results when the source was produced in this pass with a
non-empty output mapping and from the cache otherwise; a missing
effective source raises the missing-dependency `SchedulerError` naming
the producer and the consuming node, and a missing source port on the
effective mapping raises the missing-output-port `SchedulerError` naming
the producer and the port. -/
theorem C6_collect_inputs_amended_eq (g : Graph) (node_key : String) (st : LoopState) :
    collect_inputs g node_key st =
      collect_inputs_amended st node_key (g.inputs_for node_key) := by
  unfold collect_inputs
  generalize g.inputs_for node_key = ports
  induction ports with
  | nil => rfl
  | cons pc rest ih =>
    obtain ⟨port, conn⟩ := pc
    unfold collect_inputs_go collect_inputs_amended collect_port_amended
    cases hres : alookup st.results conn.source_node with
    | none =>
      cases hc : ExecutionCache.get st.cache conn.source_node with
      | none => simp [orFalsy, hres, hc]
      | some so =>
        cases hp : alookup so conn.source_port with
        | none => simp [orFalsy, hres, hc, hp]
        | some v => simp [orFalsy, hres, hc, hp, ih]
    | some out =>
      cases out with
      | nil =>
        cases hc : ExecutionCache.get st.cache conn.source_node with
        | none => simp [orFalsy, hres, hc]
        | some so =>
          cases hp : alookup so conn.source_port with
          | none => simp [orFalsy, hres, hc, hp]
          | some v => simp [orFalsy, hres, hc, hp, ih]
      | cons a arest =>
        cases hp : alookup (a :: arest) conn.source_port with
        | none => simp [orFalsy, hres, hp]
        | some v => simp [orFalsy, hres, hp, ih]

/-! ### Project serialisation round-trip (C9) -/

/-- The dictionary produced by `ProjectSerializer._graph_to_dict`. -/
structure GraphDict where
  name : String
  metadata : List (String × Value)
  nodes : List GNode
  connections : List (String × List (String × Conn))

/-- `ProjectSerializer._graph_to_dict`: serialise the node records and,
for every node key, its incoming-connection mapping. -/
def graph_to_dict (g : Graph) : GraphDict :=
  { name := g.name,
    metadata := g.metadata,
    nodes := g.nodes.map (fun n => ⟨n.key, n.type, n.title, n.parameters, n.metadata⟩),
    connections := g.nodes.map (fun n => (n.key, g.inputs_for n.key)) }

/-- `ProjectSerializer._graph_from_dict`: rebuild a fresh graph by adding
every node record and then re-issuing every connection. -/
def graph_from_dict (payload : GraphDict) : Except GraphErr Graph := do
  let g1 ← payload.nodes.foldlM
    (fun (g : Graph) n => g.add_node ⟨n.key, n.type, n.title, n.parameters, n.metadata⟩)
    { name := payload.name, metadata := payload.metadata }
  payload.connections.foldlM
    (fun (g : Graph) pc => pc.2.foldlM
      (fun (g : Graph) pp => g.connect pp.2.source_node pp.2.source_port pc.1 pp.1) g)
    g1

theorem mark_dirty_parts (g : Graph) (k : String) :
    (Graph.mark_dirty g k).nodes = g.nodes ∧
    (Graph.mark_dirty g k).connections = g.connections ∧
    (Graph.mark_dirty g k).dependents = g.dependents := by
  unfold Graph.mark_dirty
  by_cases h : k ∈ g.nodeKeys <;> simp [h]

theorem add_node_effect (g : Graph) (n : GNode) (hk : n.key ∉ g.nodeKeys) :
    ∃ g', g.add_node n = .ok g' ∧ g'.nodes = g.nodes ++ [n] ∧
      g'.connections = g.connections ∧ g'.dependents = g.dependents := by
  unfold Graph.add_node
  rw [if_neg (by simp [hk])]
  obtain ⟨h1, h2, h3⟩ := mark_dirty_parts { g with nodes := g.nodes ++ [n] } n.key
  exact ⟨_, rfl, h1, h2, h3⟩

theorem add_nodes_fold :
    ∀ (ns : List GNode) (g : Graph),
      ((g.nodeKeys ++ ns.map (fun n => n.key)).Nodup) →
      ∃ g', ns.foldlM
          (fun (g : Graph) n =>
            g.add_node ⟨n.key, n.type, n.title, n.parameters, n.metadata⟩) g = .ok g' ∧
        g'.nodes = g.nodes ++ ns ∧ g'.connections = g.connections ∧
        g'.dependents = g.dependents := by
  intro ns
  induction ns with
  | nil =>
    intro g _
    exact ⟨g, rfl, by simp, rfl, rfl⟩
  | cons n rest ih =>
    intro g hnd
    have hkey : n.key ∉ g.nodeKeys := by
      intro hc
      rw [List.nodup_append] at hnd
      exact hnd.2.2 hc (by simp)
    obtain ⟨g₁, hok, he1, he2, he3⟩ := add_node_effect g n hkey
    have hnd₁ : (g₁.nodeKeys ++ rest.map (fun n => n.key)).Nodup := by
      unfold Graph.nodeKeys
      rw [he1]
      have : (g.nodes ++ [n]).map (fun n => n.key) ++ rest.map (fun n => n.key) =
          g.nodes.map (fun n => n.key) ++ (n.key :: rest.map (fun n => n.key)) := by
        simp
      rw [this]
      exact hnd
    obtain ⟨g', hok', hh1, hh2, hh3⟩ := ih g₁ hnd₁
    refine ⟨g', ?_, ?_, by rw [hh2, he2], by rw [hh3, he3]⟩
    · rw [List.foldlM_cons, hok]
      exact hok'
    · rw [hh1, he1, List.append_assoc]
      rfl

theorem connect_effect (g : Graph) (s sp t tp : String)
    (hs : s ∈ g.nodeKeys) (ht : t ∈ g.nodeKeys) :
    ∃ g', g.connect s sp t tp = .ok g' ∧
      g'.nodes = g.nodes ∧
      (∀ x, alookup g'.connections x =
        if x = t then some (ainsert ((alookup g.connections t).getD []) tp ⟨s, sp⟩)
        else alookup g.connections x) := by
  unfold Graph.connect
  rw [if_neg (by simp [hs]), if_neg (by simp [ht])]
  obtain ⟨h1, h2, h3⟩ := mark_dirty_parts _ t
  refine ⟨_, rfl, h1, ?_⟩
  intro x
  rw [h2]
  by_cases hx : x = t
  · subst hx
    rw [if_pos rfl]
    exact alookup_ainsert_self _ _ _
  · rw [if_neg hx]
    exact alookup_ainsert_ne _ _ _ _ hx

theorem connect_fold_ports (t : String) :
    ∀ (ports : List (String × Conn)) (g : Graph),
      (ports.map Prod.fst).Nodup →
      (∀ pp ∈ ports, pp.2.source_node ∈ g.nodeKeys) → t ∈ g.nodeKeys →
      ∃ g', ports.foldlM
          (fun (g : Graph) pp =>
            g.connect pp.2.source_node pp.2.source_port t pp.1) g = .ok g' ∧
        g'.nodes = g.nodes ∧
        (∀ x, x ≠ t → alookup g'.connections x = alookup g.connections x) ∧
        (∀ p, alookup ((alookup g'.connections t).getD []) p =
          match alookup ports p with
          | some c => some c
          | none => alookup ((alookup g.connections t).getD []) p) := by
  intro ports
  induction ports with
  | nil =>
    intro g _ _ _
    refine ⟨g, rfl, rfl, fun x _ => rfl, fun p => ?_⟩
    simp [alookup]
  | cons pp rest ih =>
    intro g hnd hsrc ht
    obtain ⟨q, c⟩ := pp
    obtain ⟨g₁, hok, he1, he2⟩ :=
      connect_effect g c.source_node c.source_port t q (hsrc (q, c) (by simp)) ht
    have hsrc₁ : ∀ pp ∈ rest, pp.2.source_node ∈ g₁.nodeKeys := by
      intro pp hpp
      unfold Graph.nodeKeys
      rw [he1]
      exact hsrc pp (by simp [hpp])
    have ht₁ : t ∈ g₁.nodeKeys := by
      unfold Graph.nodeKeys
      rw [he1]
      exact ht
    simp only [List.map_cons, List.nodup_cons] at hnd
    obtain ⟨g', hok', hh1, hh2, hh3⟩ := ih g₁ hnd.2 hsrc₁ ht₁
    refine ⟨g', ?_, by rw [hh1, he1], ?_, ?_⟩
    · rw [List.foldlM_cons, hok]
      exact hok'
    · intro x hx
      rw [hh2 x hx, he2 x, if_neg hx]
    · intro p
      rw [hh3 p]
      rw [he2 t, if_pos rfl]
      simp only [Option.getD_some]
      by_cases hp : p = q
      · have hnone : alookup rest p = none := by
          rw [alookup_eq_none, hp]
          exact hnd.1
        rw [hnone]
        simp only [alookup, if_pos hp.symm]
        rw [hp, alookup_ainsert_self]
      · cases hrest : alookup rest p with
        | some c' =>
          simp only [alookup, if_neg (fun hc : q = p => hp hc.symm), hrest]
        | none =>
          simp only [alookup, if_neg (fun hc : q = p => hp hc.symm), hrest]
          rw [alookup_ainsert_ne _ _ _ _ hp]

theorem connect_fold_targets :
    ∀ (groups : List (String × List (String × Conn))) (g : Graph),
      (groups.map Prod.fst).Nodup →
      (∀ grp ∈ groups, grp.1 ∈ g.nodeKeys ∧ (grp.2.map Prod.fst).Nodup ∧
        ∀ pp ∈ grp.2, pp.2.source_node ∈ g.nodeKeys) →
      ∃ g', groups.foldlM
          (fun (g : Graph) pc => pc.2.foldlM
            (fun (g : Graph) pp => g.connect pp.2.source_node pp.2.source_port pc.1 pp.1) g)
          g = .ok g' ∧
        g'.nodes = g.nodes ∧
        (∀ x, x ∉ groups.map Prod.fst →
          alookup g'.connections x = alookup g.connections x) ∧
        (∀ grp ∈ groups, ∀ p,
          alookup ((alookup g'.connections grp.1).getD []) p =
            match alookup grp.2 p with
            | some c => some c
            | none => alookup ((alookup g.connections grp.1).getD []) p) := by
  intro groups
  induction groups with
  | nil =>
    intro g _ _
    exact ⟨g, rfl, rfl, fun x _ => rfl, fun grp hgrp => absurd hgrp (by simp)⟩
  | cons grp0 rest ih =>
    intro g hnd hmem
    obtain ⟨t, ports⟩ := grp0
    obtain ⟨ht, hpnd, hpsrc⟩ := hmem (t, ports) (by simp)
    obtain ⟨g₁, hok, he1, he2, he3⟩ := connect_fold_ports t ports g hpnd hpsrc ht
    simp only [List.map_cons, List.nodup_cons] at hnd
    have hkeys₁ : g₁.nodeKeys = g.nodeKeys := by
      unfold Graph.nodeKeys
      rw [he1]
    have hmem₁ : ∀ grp ∈ rest, grp.1 ∈ g₁.nodeKeys ∧ (grp.2.map Prod.fst).Nodup ∧
        ∀ pp ∈ grp.2, pp.2.source_node ∈ g₁.nodeKeys := by
      intro grp hgrp
      obtain ⟨h1, h2, h3⟩ := hmem grp (by simp [hgrp])
      exact ⟨by rw [hkeys₁]; exact h1, h2, fun pp hpp => by rw [hkeys₁]; exact h3 pp hpp⟩
    obtain ⟨g', hok', hh1, hh2, hh3⟩ := ih g₁ hnd.2 hmem₁
    refine ⟨g', ?_, by rw [hh1, he1], ?_, ?_⟩
    · rw [List.foldlM_cons, hok]
      exact hok'
    · intro x hx
      simp only [List.map_cons, List.mem_cons] at hx
      push_neg at hx
      rw [hh2 x hx.2, he2 x hx.1]
    · intro grp hgrp p
      rcases List.mem_cons.mp hgrp with hq | hq
      · rw [hq]
        have hthere : alookup g'.connections t = alookup g₁.connections t :=
          hh2 t hnd.1
        simp only
        rw [hthere, he3 p]
      · have hne : grp.1 ≠ t := by
          intro hc
          exact hnd.1 (hc ▸ (List.mem_map.mpr ⟨grp, hq, rfl⟩))
        rw [hh3 grp hq p, he2 grp.1 hne]

theorem graph_to_dict_nodes (g : Graph) : (graph_to_dict g).nodes = g.nodes := by
  have heta : (fun (n : GNode) =>
      (⟨n.key, n.type, n.title, n.parameters, n.metadata⟩ : GNode)) = id := by
    funext n
    rfl
  show g.nodes.map
    (fun n => (⟨n.key, n.type, n.title, n.parameters, n.metadata⟩ : GNode)) = g.nodes
  rw [heta, List.map_id]

theorem find?_key_perm {l₁ l₂ : List GNode} (hp : List.Perm l₁ l₂)
    (hnd : (l₁.map (fun n => n.key)).Nodup) (k : String) :
    l₁.find? (fun n => n.key == k) = l₂.find? (fun n => n.key == k) := by
  cases h₁ : l₁.find? (fun n => n.key == k) with
  | none =>
    rw [List.find?_eq_none] at h₁
    symm
    rw [List.find?_eq_none]
    intro x hx
    exact h₁ x (hp.mem_iff.mpr hx)
  | some n =>
    have hn : n ∈ l₁ := List.mem_of_find?_eq_some h₁
    have hkey : n.key = k := by
      have := List.find?_some h₁
      simpa using this
    cases h₂ : l₂.find? (fun n => n.key == k) with
    | none =>
      rw [List.find?_eq_none] at h₂
      exact absurd (by simp [hkey]) (h₂ n (hp.mem_iff.mp hn))
    | some m =>
      have hm : m ∈ l₁ := hp.mem_iff.mpr (List.mem_of_find?_eq_some h₂)
      have hmkey : m.key = k := by
        have := List.find?_some h₂
        simpa using this
      have : n = m := by
        have hinj := List.inj_on_of_nodup_map hnd
        exact hinj hn hm (by rw [hkey, hmkey])
      rw [this]

theorem conn_keys_closed (g : Graph) (hwf : WellFormed g) (t : String)
    (hnk : t ∉ g.nodeKeys) : alookup g.connections t = none := by
  cases h : alookup g.connections t with
  | none => rfl
  | some e =>
    have := (hwf.2.2 (t, e) (alookup_mem h)).1
    exact absurd this hnk

/-- The id rewriting on the match used to fold the port formula away. -/
theorem match_alookup_id {α : Type} (o : Option α) :
    (match o with
     | some c => some c
     | none => (none : Option α)) = o := by
  cases o <;> rfl

/-- C9: serialising a well-formed graph with `_graph_to_dict` and
deserialising with `_graph_from_dict` succeeds and reconstructs a graph
with the same node records (looked up by key), the same key set, and an
extensionally equal connection map — for ANY reordering of the serialised
node list, so the order of that list is not semantically significant. -/
theorem C9_roundtrip (g : Graph) (hwf : WellFormed g)
    (nodesPerm : List GNode) (hperm : List.Perm (graph_to_dict g).nodes nodesPerm) :
    ∃ g', graph_from_dict
        { graph_to_dict g with
          nodes := nodesPerm } = .ok g' ∧
      (∀ k, g'.findNode k = g.findNode k) ∧
      List.Perm g'.nodeKeys g.nodeKeys ∧
      (∀ t p, alookup (g'.inputs_for t) p = alookup (g.inputs_for t) p) := by
  rw [graph_to_dict_nodes] at hperm
  have hkeyperm : List.Perm (nodesPerm.map (fun n => n.key))
      (g.nodes.map (fun n => n.key)) := (hperm.map (fun n => n.key)).symm
  have hndP : (nodesPerm.map (fun n => n.key)).Nodup :=
    (hkeyperm.nodup_iff).mpr hwf.1
  obtain ⟨g₁, hok₁, hn1, hn2, -⟩ := add_nodes_fold nodesPerm
    { name := (graph_to_dict g).name, metadata := (graph_to_dict g).metadata }
    (by simpa [Graph.nodeKeys] using hndP)
  have hg₁nodes : g₁.nodes = nodesPerm := by
    simpa using hn1
  have hg₁keys : ∀ x, x ∈ g₁.nodeKeys ↔ x ∈ g.nodeKeys := by
    intro x
    unfold Graph.nodeKeys
    rw [hg₁nodes]
    exact hkeyperm.mem_iff
  have hg₁conns : g₁.connections = [] := by
    simpa using hn2
  have hgroups : ∀ grp ∈ (graph_to_dict g).connections,
      grp.1 ∈ g₁.nodeKeys ∧ (grp.2.map Prod.fst).Nodup ∧
      ∀ pp ∈ grp.2, pp.2.source_node ∈ g₁.nodeKeys := by
    intro grp hgrp
    rw [graph_to_dict] at hgrp
    simp only [List.mem_map] at hgrp
    obtain ⟨n, hn, hgeq⟩ := hgrp
    have hkmem : n.key ∈ g.nodeKeys := List.mem_map.mpr ⟨n, hn, rfl⟩
    have hports : ((g.inputs_for n.key).map Prod.fst).Nodup ∧
        ∀ pp ∈ g.inputs_for n.key, pp.2.source_node ∈ g.nodeKeys := by
      unfold Graph.inputs_for
      cases he : alookup g.connections n.key with
      | none => simp
      | some e =>
        obtain ⟨-, h2, h3⟩ := hwf.2.2 (n.key, e) (alookup_mem he)
        exact ⟨h2, h3⟩
    rw [← hgeq]
    exact ⟨(hg₁keys n.key).mpr hkmem, hports.1,
      fun pp hpp => (hg₁keys pp.2.source_node).mpr (hports.2 pp hpp)⟩
  have hgnd : (((graph_to_dict g).connections).map Prod.fst).Nodup := by
    rw [graph_to_dict]
    simp only [List.map_map]
    exact hwf.1
  obtain ⟨g', hok₂, hc1, hc2, hc3⟩ :=
    connect_fold_targets (graph_to_dict g).connections g₁ hgnd hgroups
  refine ⟨g', ?_, ?_, ?_, ?_⟩
  · rw [graph_from_dict]
    simp only [hok₁]
    exact hok₂
  · intro k
    unfold Graph.findNode
    rw [hc1, hg₁nodes]
    exact (find?_key_perm hperm hwf.1 k).symm
  · unfold Graph.nodeKeys
    rw [hc1, hg₁nodes]
    exact hkeyperm
  · intro t p
    unfold Graph.inputs_for
    by_cases hT : t ∈ g.nodeKeys
    · obtain ⟨n, hn, hkeq⟩ := List.mem_map.mp hT
      have hgrp : (t, g.inputs_for t) ∈ (graph_to_dict g).connections := by
        rw [graph_to_dict]
        exact List.mem_map.mpr ⟨n, hn, by rw [hkeq]⟩
      have := hc3 (t, g.inputs_for t) hgrp p
      simp only at this
      rw [this]
      unfold Graph.inputs_for
      rw [hg₁conns]
      show (match alookup ((alookup g.connections t).getD []) p with
            | some c => some c
            | none => alookup (((none : Option (List (String × Conn)))).getD []) p) =
        alookup ((alookup g.connections t).getD []) p
      simp only [Option.getD_none]
      cases alookup ((alookup g.connections t).getD []) p with
      | some c => rfl
      | none => simp [alookup]
    · have hnone : alookup g.connections t = none := conn_keys_closed g hwf t hT
      have hout : t ∉ ((graph_to_dict g).connections).map Prod.fst := by
        rw [graph_to_dict]
        simp only [List.map_map]
        intro hc
        exact hT (by simpa [Graph.nodeKeys, Function.comp] using hc)
      rw [hc2 t hout, hg₁conns, hnone]
      rfl

def n9a : GNode := { key := "a", type := "ta" }

def n9b : GNode := { key := "b", type := "tb" }

/-- A two-node graph with one connection, used to exercise the round trip. -/
def g9 : Graph :=
  { name := "p", nodes := [n9a, n9b],
    connections := [("b", [("in", ⟨"a", "out"⟩)])],
    dependents := [("a", ["b"])], dirty := [] }

theorem C9_roundtrip_witness :
    WellFormed g9 ∧
    List.Perm (graph_to_dict g9).nodes [n9b, n9a] ∧
    ∃ g', graph_from_dict
        { graph_to_dict g9 with
          nodes := [n9b, n9a] } = .ok g' ∧
      (∀ k, g'.findNode k = g9.findNode k) ∧
      List.Perm g'.nodeKeys g9.nodeKeys ∧
      (∀ t p, alookup (g'.inputs_for t) p = alookup (g9.inputs_for t) p) := by
  have hwf : WellFormed g9 := by decide
  have hperm : List.Perm (graph_to_dict g9).nodes [n9b, n9a] := by
    rw [graph_to_dict_nodes]
    exact List.Perm.swap n9b n9a []
  exact ⟨hwf, hperm, C9_roundtrip g9 hwf [n9b, n9a] hperm⟩

end Hesiod

namespace Hesiod

/-! ### Signature determinism (C4) -/

instance : IsTotal (String × Value) (fun a b => a.1 ≤ b.1) :=
  ⟨fun a b => le_total a.1 b.1⟩

instance : IsTrans (String × Value) (fun a b => a.1 ≤ b.1) :=
  ⟨fun _ _ _ hab hbc => le_trans hab hbc⟩

instance : IsAntisymm (String × Value) (fun a b => a.1 < b.1) :=
  ⟨fun _ _ hab hba => absurd hba (lt_asymm hab)⟩

theorem sortByKey_perm (kvs : List (String × Value)) :
    List.Perm (sortByKey kvs) kvs :=
  List.perm_insertionSort _ kvs

theorem sortByKey_sorted (kvs : List (String × Value)) :
    (sortByKey kvs).Pairwise (fun a b => a.1 ≤ b.1) :=
  List.sorted_insertionSort _ kvs

theorem sortByKey_sorted_strict {kvs : List (String × Value)}
    (hnd : (kvs.map Prod.fst).Nodup) :
    (sortByKey kvs).Pairwise (fun a b => a.1 < b.1) := by
  have hnd' : ((sortByKey kvs).map Prod.fst).Nodup :=
    (((sortByKey_perm kvs).map Prod.fst).nodup_iff).mpr hnd
  have hne : (sortByKey kvs).Pairwise (fun a b : String × Value => a.1 ≠ b.1) :=
    List.pairwise_map.mp hnd'
  have hle := sortByKey_sorted kvs
  exact (hle.and hne).imp (fun h => lt_of_le_of_ne h.1 h.2)

theorem sortByKey_perm_eq {kvs₁ kvs₂ : List (String × Value)}
    (hperm : List.Perm kvs₁ kvs₂) (hnd : (kvs₁.map Prod.fst).Nodup) :
    sortByKey kvs₁ = sortByKey kvs₂ := by
  have hnd₂ : (kvs₂.map Prod.fst).Nodup := ((hperm.map Prod.fst).nodup_iff).mp hnd
  apply List.eq_of_perm_of_sorted (r := fun a b : String × Value => a.1 < b.1)
  · exact (sortByKey_perm kvs₁).trans (hperm.trans (sortByKey_perm kvs₂).symm)
  · exact sortByKey_sorted_strict hnd
  · exact sortByKey_sorted_strict hnd₂

theorem normalise_kvs_eq_map (sha1 : List Nat → String) :
    ∀ kvs : List (String × Value),
      normalise_kvs sha1 kvs = kvs.map (fun p => (p.1, normalise_value sha1 p.2)) := by
  intro kvs
  induction kvs with
  | nil => rfl
  | cons p rest ih =>
    obtain ⟨k, v⟩ := p
    unfold normalise_kvs
    rw [ih]
    rfl

theorem normalise_vdict_perm (sha1 : List Nat → String)
    {kvs₁ kvs₂ : List (String × Value)} (hperm : List.Perm kvs₁ kvs₂)
    (hnd : (kvs₁.map Prod.fst).Nodup) :
    normalise_value sha1 (.vdict kvs₁) = normalise_value sha1 (.vdict kvs₂) := by
  show Value.vdict (sortByKey (normalise_kvs sha1 kvs₁)) =
    Value.vdict (sortByKey (normalise_kvs sha1 kvs₂))
  congr 1
  apply sortByKey_perm_eq
  · rw [normalise_kvs_eq_map, normalise_kvs_eq_map]
    exact hperm.map _
  · rw [normalise_kvs_eq_map]
    have : (kvs₁.map (fun p => (p.1, normalise_value sha1 p.2))).map Prod.fst =
        kvs₁.map Prod.fst := by
      rw [List.map_map]
      rfl
    rw [this]
    exact hnd

/-- **C4**: the node signature is a deterministic function of the node
key, type, parameters-as-a-mapping and inputs-as-a-mapping: permuting the
entries of either mapping (equality of Python dicts) leaves the digest
unchanged for every choice of the hash functions; mappings are normalised
by sorted keys, sequences are normalised preserving their order, and
numpy arrays are reduced to shape, dtype tag and content digest of the
raw bytes before the sorted-key serialisation is hashed. -/
theorem C4_signature_deterministic :
    (∀ (sha256 : String → String) (sha1 : List Nat → String)
       (n₁ n₂ : GNode) (ins₁ ins₂ : Outputs),
       n₁.key = n₂.key → n₁.type = n₂.type →
       List.Perm n₁.parameters n₂.parameters →
       (n₁.parameters.map Prod.fst).Nodup →
       List.Perm ins₁ ins₂ → (ins₁.map Prod.fst).Nodup →
       make_signature sha256 sha1 n₁ ins₁ = make_signature sha256 sha1 n₂ ins₂) ∧
    (∀ (sha1 : List Nat → String) (xs : List Value),
       normalise_value sha1 (.vlist xs) = .vlist (normalise_list sha1 xs)) ∧
    (∀ (sha1 : List Nat → String) (kvs : List (String × Value)),
       normalise_value sha1 (.vdict kvs) = .vdict (sortByKey (normalise_kvs sha1 kvs))) ∧
    (∀ (sha1 : List Nat → String) (sh : List Nat) (d : String) (b : List Nat),
       normalise_value sha1 (.vnd sh d b) =
         .vdict [("__ndarray__", .vbool true),
                 ("shape", .vlist (sh.map (fun n => Value.vint (Int.ofNat n)))),
                 ("dtype", .vstr d),
                 ("digest", .vstr (sha1 b))]) := by
  refine ⟨?_, fun _ _ => rfl, fun _ _ => rfl, fun _ _ _ _ => rfl⟩
  intro sha256 sha1 n₁ n₂ ins₁ ins₂ hkey htype hpperm hpnd hiperm hind
  unfold make_signature
  rw [hkey, htype,
    normalise_vdict_perm sha1 hpperm hpnd,
    normalise_vdict_perm sha1 hiperm hind]

/-- Witness for C4: two nodes whose parameter mappings are reorderings of
each other produce the same signature. -/
theorem C4_signature_deterministic_witness :
    ((⟨"n", "t", none, [("a", .vint 1), ("b", .vint 2)], []⟩ : GNode).key =
      (⟨"n", "t", none, [("b", .vint 2), ("a", .vint 1)], []⟩ : GNode).key ∧
     List.Perm [("a", Value.vint 1), ("b", Value.vint 2)]
       [("b", Value.vint 2), ("a", Value.vint 1)] ∧
     ([("a", Value.vint 1), ("b", Value.vint 2)].map Prod.fst).Nodup) ∧
    make_signature (fun s => s) (fun _ => "h")
        ⟨"n", "t", none, [("a", .vint 1), ("b", .vint 2)], []⟩ [] =
      make_signature (fun s => s) (fun _ => "h")
        ⟨"n", "t", none, [("b", .vint 2), ("a", .vint 1)], []⟩ [] :=
  ⟨⟨rfl, List.Perm.swap _ _ _, by decide⟩,
    C4_signature_deterministic.1 (fun s => s) (fun _ => "h")
      ⟨"n", "t", none, [("a", .vint 1), ("b", .vint 2)], []⟩
      ⟨"n", "t", none, [("b", .vint 2), ("a", .vint 1)], []⟩ [] []
      rfl rfl (List.Perm.swap _ _ _) (by decide) (List.Perm.refl _) (by decide)⟩

/-! ### A reachable cycle aborts evaluation without side effects (C7) -/

/-- The `result_nodes` resolution at the top of `GraphScheduler.evaluate`:
all nodes when no targets are supplied, otherwise the requested keys that
exist in the graph. -/
def eval_result_nodes (g : Graph) (targets : Option (List String)) : List String :=
  match targets with
  | none => g.nodeKeys
  | some ts => ts.filter (· ∈ g.nodeKeys)

theorem proceed_cycle (g : Graph) (T : List String) (hT : T ⊆ g.nodeKeys)
    (m : String) (hm : InClosure g T m)
    (hcyc : Relation.TransGen (DepEdge g) m m) :
    ∃ rem, (match static_order g.dependencies_of ((g.closure_visited T).length + 1)
        (g.closure_visited T) [] with
      | .ok order => Except.ok order
      | .error rem => Except.error (GraphErr.cycle rem)) =
      .error (GraphErr.cycle rem) := by
  cases hso : static_order g.dependencies_of ((g.closure_visited T).length + 1)
      (g.closure_visited T) [] with
  | ok out =>
    exfalso
    exact (Graph.sorter_on_closure_ok g T hT hso).2.2.2 m hm hcyc
  | error rem =>
    exact ⟨rem, rfl⟩

theorem topo_cycle_error (g : Graph) (limit_to : Option (List String)) (m : String)
    (hm : InClosure g (g.resolved_targets limit_to) m)
    (hcyc : Relation.TransGen (DepEdge g) m m) :
    ∃ rem, g.topological_order limit_to = .error (.cycle rem) := by
  cases limit_to with
  | none =>
    have hm' : InClosure g g.nodeKeys m := hm
    obtain ⟨rem, hrem⟩ := proceed_cycle g g.nodeKeys (fun x hx => hx) m hm' hcyc
    exact ⟨rem, hrem⟩
  | some lt =>
    have hm' : InClosure g ((lt.filter (· ∈ g.nodeKeys)).dedup) m := hm
    have hT : ((lt.filter (· ∈ g.nodeKeys)).dedup) ⊆ g.nodeKeys :=
      Graph.resolved_targets_subset g (some lt)
    have hne : ((lt.filter (· ∈ g.nodeKeys)).dedup).isEmpty = false := by
      obtain ⟨r, hr, -⟩ := hm'
      cases hE : (lt.filter (· ∈ g.nodeKeys)).dedup with
      | nil =>
        rw [hE] at hr
        exact absurd hr (by simp)
      | cons a as => rfl
    obtain ⟨rem, hrem⟩ := proceed_cycle g ((lt.filter (· ∈ g.nodeKeys)).dedup) hT m hm' hcyc
    refine ⟨rem, ?_⟩
    simp only [Graph.topological_order]
    rw [hne]
    simp only [Bool.false_eq_true, if_false]
    exact hrem

/-- C7: whenever a dependency cycle is reachable from the resolved request
set, `topological_order` fails with `GraphError.cycle`, and `evaluate`
returns that error having produced no results, invoked no handler, written
nothing to the cache, cleared no dirty flag and reported no progress. -/
theorem C7_cycle_error (sha256 : String → String) (sha1 : List Nat → String)
    (reg : Registry) (g : Graph) (targets : Option (List String))
    (context : Option RuntimeContext) (force : Bool) (cache0 : ExecutionCache)
    (m : String)
    (hm : InClosure g (eval_result_nodes g targets) m)
    (hcyc : Relation.TransGen (DepEdge g) m m) :
    ∃ rem,
      g.topological_order (some (eval_result_nodes g targets)) =
        .error (.cycle rem) ∧
      evaluate sha256 sha1 reg g targets context force cache0 =
        { result := .error (.cycle rem),
          state := { results := [], cache := cache0, dirty := g.dirty,
                     invoked := [], plog := [] } } := by
  have hsub : eval_result_nodes g targets ⊆ g.nodeKeys := by
    cases targets with
    | none => exact fun x hx => hx
    | some ts =>
      intro x hx
      have := List.mem_filter.mp hx
      simpa using this.2
  have hm' : InClosure g (g.resolved_targets (some (eval_result_nodes g targets))) m := by
    obtain ⟨r, hr, hrt⟩ := hm
    refine ⟨r, ?_, hrt⟩
    show r ∈ ((eval_result_nodes g targets).filter (· ∈ g.nodeKeys)).dedup
    rw [List.mem_dedup, List.mem_filter]
    exact ⟨hr, by simpa using hsub hr⟩
  obtain ⟨rem, hrem⟩ :=
    topo_cycle_error g (some (eval_result_nodes g targets)) m hm' hcyc
  have hne : (eval_result_nodes g targets).isEmpty = false := by
    obtain ⟨r, hr, -⟩ := hm
    cases hE : eval_result_nodes g targets with
    | nil =>
      rw [hE] at hr
      exact absurd hr (by simp)
    | cons a as => rfl
  refine ⟨rem, hrem, ?_⟩
  cases targets with
  | none =>
    have hne' : g.nodeKeys.isEmpty = false := hne
    have hrem' : g.topological_order (some g.nodeKeys) = .error (.cycle rem) := hrem
    simp only [evaluate]
    rw [hne']
    simp only [Bool.false_eq_true, if_false]
    rw [hrem']
  | some ts =>
    have hne' : (ts.filter (· ∈ g.nodeKeys)).isEmpty = false := hne
    have hrem' : g.topological_order (some (ts.filter (· ∈ g.nodeKeys))) =
        .error (.cycle rem) := hrem
    simp only [evaluate]
    rw [hne']
    simp only [Bool.false_eq_true, if_false]
    rw [hrem']

def gC : Graph :=
  { name := "c",
    nodes := [{ key := "a", type := "ta" }, { key := "b", type := "tb" }],
    connections := [("a", [("in", ⟨"b", "out"⟩)]), ("b", [("in", ⟨"a", "out"⟩)])],
    dependents := [("a", ["b"]), ("b", ["a"])], dirty := [] }

theorem C7_cycle_error_witness :
    InClosure gC (eval_result_nodes gC none) "a" ∧
    Relation.TransGen (DepEdge gC) "a" "a" ∧
    ∃ rem,
      gC.topological_order (some (eval_result_nodes gC none)) =
        .error (.cycle rem) ∧
      evaluate (fun _ => "") (fun _ => "") [] gC none none false {} =
        { result := .error (.cycle rem),
          state := { results := [], cache := {}, dirty := gC.dirty,
                     invoked := [], plog := [] } } := by
  have hm : InClosure gC (eval_result_nodes gC none) "a" :=
    ⟨"a", by decide, Relation.ReflTransGen.refl⟩
  have h1 : DepEdge gC "a" "b" := by
    show "b" ∈ gC.dependencies_of "a"
    decide
  have h2 : DepEdge gC "b" "a" := by
    show "a" ∈ gC.dependencies_of "b"
    decide
  have hcyc : Relation.TransGen (DepEdge gC) "a" "a" :=
    Relation.TransGen.tail (Relation.TransGen.single h1) h2
  exact ⟨hm, hcyc,
    C7_cycle_error (fun _ => "") (fun _ => "") [] gC none none false {} "a" hm hcyc⟩

/-! ### Idempotence of evaluation with memoization (C3) -/

/-- `_collect_inputs` against an abstract per-source view `W` of the
available outputs (the `results or cache` choice collapses to such a
view). -/
def collect_from (W : String → Option Outputs) (node_key : String) :
    List (String × Conn) → Except EvalErr Outputs
  | [] => .ok []
  | (port_name, connection) :: rest =>
    match W connection.source_node with
    | none => .error (.missingOutputs connection.source_node node_key)
    | some source_outputs =>
      match alookup source_outputs connection.source_port with
      | none => .error (.missingPort connection.source_node connection.source_port)
      | some v => (collect_from W node_key rest).map (fun ins => (port_name, v) :: ins)

theorem orFalsy_self (x : Option Outputs) : orFalsy x x = x := by
  cases x with
  | none => rfl
  | some o =>
    simp only [orFalsy]
    split <;> rfl

theorem collect_go_eq_from (node_key : String) (st : LoopState) :
    ∀ ports, collect_inputs_go node_key st ports =
      collect_from (fun s => orFalsy (alookup st.results s) (st.cache.get s))
        node_key ports := by
  intro ports
  induction ports with
  | nil => rfl
  | cons pp rest ih =>
    obtain ⟨p, conn⟩ := pp
    simp only [collect_inputs_go, collect_from, ih]

theorem collect_from_congr (node_key : String) (W₁ W₂ : String → Option Outputs)
    (hW : ∀ s, W₁ s = W₂ s) :
    ∀ ports, collect_from W₁ node_key ports = collect_from W₂ node_key ports := by
  intro ports
  induction ports with
  | nil => rfl
  | cons pp rest ih =>
    obtain ⟨p, conn⟩ := pp
    simp only [collect_from, hW, ih]

theorem collect_from_ok_mono (node_key : String) (W₁ W₂ : String → Option Outputs)
    (hW : ∀ s v, W₁ s = some v → W₂ s = some v) :
    ∀ ports ins, collect_from W₁ node_key ports = .ok ins →
      collect_from W₂ node_key ports = .ok ins := by
  intro ports
  induction ports with
  | nil =>
    intro ins h
    exact h
  | cons pp rest ih =>
    intro ins h
    obtain ⟨p, conn⟩ := pp
    simp only [collect_from] at h ⊢
    cases hw : W₁ conn.source_node with
    | none =>
      rw [hw] at h
      exact absurd h (by simp)
    | some so =>
      rw [hw] at h
      rw [hW conn.source_node so hw]
      simp only at h ⊢
      cases hl : alookup so conn.source_port with
      | none =>
        rw [hl] at h
        exact absurd h (by simp)
      | some v =>
        rw [hl] at h
        simp only at h ⊢
        cases hr : collect_from W₁ node_key rest with
        | error e =>
          rw [hr] at h
          exact absurd h (by simp [Except.map])
        | ok ins₀ =>
          rw [hr] at h
          rw [ih ins₀ hr]
          exact h

/-- The cache can serve node `k` without invocation: the node exists, its
inputs resolve from cached outputs alone, outputs are stored, and the
stored signature matches a fresh computation over those inputs. -/
def CacheReady (sha256 : String → String) (sha1 : List Nat → String)
    (g : Graph) (cache : ExecutionCache) (k : String) : Prop :=
  ∃ node ins outs, g.findNode k = some node ∧
    collect_from (fun s => cache.get s) k (g.inputs_for k) = .ok ins ∧
    cache.get k = some outs ∧
    alookup cache.signatures k = some (make_signature sha256 sha1 node ins)

theorem invokeState_memo (sha256 : String → String) (sha1 : List Nat → String)
    (ctx : RuntimeContext) (total index : Nat) (node : GNode) (k : String)
    (ins outs : Outputs) (st : LoopState)
    (hmemo : ctx.enable_memoization = true) :
    invokeState sha256 sha1 ctx total index node k ins outs st =
      { results := ainsert st.results k outs,
        cache := { values := ainsert st.cache.values k outs,
                   signatures := ainsert st.cache.signatures k
                     (make_signature sha256 sha1 node ins) },
        dirty := st.dirty.filter (· ≠ k),
        invoked := st.invoked ++ [k],
        plog := st.plog ++ [(index, total, k)] } := by
  unfold invokeState ExecutionCache.store
  simp [hmemo]

theorem pass1_spec (sha256 : String → String) (sha1 : List Nat → String)
    (reg : Registry) (g : Graph) (ctx : RuntimeContext) (force : Bool)
    (total : Nat) (hmemo : ctx.enable_memoization = true) :
    ∀ (todo : List String) (index : Nat) (st st' : LoopState),
      todo.Nodup →
      (∀ s, alookup st.results s = st.cache.get s) →
      (∀ k ∈ todo, st.cache.get k = none ∧ alookup st.cache.signatures k = none) →
      evalLoop sha256 sha1 reg g ctx force total todo index st = (st', none) →
      st'.invoked = st.invoked ++ todo ∧
      (∀ s, alookup st'.results s = st'.cache.get s) ∧
      (∀ s v, st.cache.get s = some v → st'.cache.get s = some v) ∧
      (∀ s v, alookup st.cache.signatures s = some v →
        alookup st'.cache.signatures s = some v) ∧
      (∀ x, x ∈ st'.dirty → x ∈ st.dirty) ∧
      (∀ k ∈ todo, k ∉ st'.dirty) ∧
      (∀ k ∈ todo, CacheReady sha256 sha1 g st'.cache k) := by
  intro todo
  induction todo with
  | nil =>
    intro index st st' _ hrc _ hloop
    have hst : st = st' := by
      simpa [evalLoop] using hloop
    subst hst
    exact ⟨by simp, hrc, fun s v h => h, fun s v h => h, fun x hx => hx,
      fun k hk => absurd hk (by simp), fun k hk => absurd hk (by simp)⟩
  | cons k rest ih =>
    intro index st st' hnd hrc hfresh hloop
    rw [List.nodup_cons] at hnd
    simp only [evalLoop] at hloop
    cases hstep : eval_step sha256 sha1 reg g ctx force total index k st with
    | error e =>
      rw [hstep] at hloop
      exact absurd hloop (by simp)
    | ok st₁ =>
      rw [hstep] at hloop
      simp only at hloop
      obtain ⟨node, ins, hfind, hcollect, hbranch⟩ :=
        eval_step_cases sha256 sha1 reg g ctx force total index k st st₁ hstep
      rcases hbranch with ⟨hconds, -⟩ | ⟨-, defn, outs, hreg', hhand, hst₁⟩
      · have h2 := hconds.2.2.2
        rw [(hfresh k (by simp)).2] at h2
        simp at h2
      · subst hst₁
        rw [invokeState_memo sha256 sha1 ctx total index node k ins outs st hmemo] at hloop
        have hrc₁ : ∀ s, alookup (ainsert st.results k outs) s =
            alookup (ainsert st.cache.values k outs) s := by
          intro s
          rw [alookup_ainsert, alookup_ainsert]
          by_cases hs : s = k
          · rw [if_pos hs, if_pos hs]
          · rw [if_neg hs, if_neg hs]
            exact hrc s
        have hfresh₁ : ∀ k' ∈ rest,
            alookup (ainsert st.cache.values k outs) k' = none ∧
            alookup (ainsert st.cache.signatures k
              (make_signature sha256 sha1 node ins)) k' = none := by
          intro k' hk'
          have hkk : k' ≠ k := fun he => hnd.1 (he ▸ hk')
          refine ⟨?_, ?_⟩
          · rw [alookup_ainsert_ne _ _ _ _ hkk]
            exact (hfresh k' (by simp [hk'])).1
          · rw [alookup_ainsert_ne _ _ _ _ hkk]
            exact (hfresh k' (by simp [hk'])).2
        obtain ⟨c1, c2, c3, c3s, c6, c4, c5⟩ :=
          ih (index + 1)
            { results := ainsert st.results k outs,
              cache := { values := ainsert st.cache.values k outs,
                         signatures := ainsert st.cache.signatures k
                           (make_signature sha256 sha1 node ins) },
              dirty := st.dirty.filter (· ≠ k),
              invoked := st.invoked ++ [k],
              plog := st.plog ++ [(index, total, k)] } st' hnd.2 hrc₁ hfresh₁ hloop
        have hmono_get : ∀ s v, st.cache.get s = some v → st'.cache.get s = some v := by
          intro s v h
          have hsk : s ≠ k := by
            intro he
            rw [he, (hfresh k (by simp)).1] at h
            cases h
          refine c3 s v ?_
          show alookup (ainsert st.cache.values k outs) s = some v
          rw [alookup_ainsert_ne _ _ _ _ hsk]
          exact h
        have hmono_sig : ∀ s v, alookup st.cache.signatures s = some v →
            alookup st'.cache.signatures s = some v := by
          intro s v h
          have hsk : s ≠ k := by
            intro he
            rw [he, (hfresh k (by simp)).2] at h
            cases h
          refine c3s s v ?_
          show alookup (ainsert st.cache.signatures k
            (make_signature sha256 sha1 node ins)) s = some v
          rw [alookup_ainsert_ne _ _ _ _ hsk]
          exact h
        have hdirty_mono : ∀ x, x ∈ st'.dirty → x ∈ st.dirty := by
          intro x hx
          have h2 := c6 x hx
          have h3 := List.mem_filter.mp h2
          exact h3.1
        refine ⟨?_, c2, hmono_get, hmono_sig, hdirty_mono, ?_, ?_⟩
        · rw [c1]
          simp
        · intro k' hk'
          rcases List.mem_cons.mp hk' with he | hm
          · subst he
            intro hin
            have h2 := c6 k' hin
            simp [List.mem_filter] at h2
          · exact c4 k' hm
        · intro k' hk'
          rcases List.mem_cons.mp hk' with he | hm
          · subst he
            refine ⟨node, ins, outs, hfind, ?_, ?_, ?_⟩
            · have h0 : collect_inputs_go k' st (g.inputs_for k') = .ok ins := hcollect
              rw [collect_go_eq_from] at h0
              rw [collect_from_congr k'
                (fun s => orFalsy (alookup st.results s) (st.cache.get s))
                (fun s => st.cache.get s)
                (fun s => by
                  show orFalsy (alookup st.results s) (st.cache.get s) = st.cache.get s
                  rw [hrc s, orFalsy_self]) (g.inputs_for k')] at h0
              exact collect_from_ok_mono k' _ _ hmono_get (g.inputs_for k') ins h0
            · refine c3 k' outs ?_
              show alookup (ainsert st.cache.values k' outs) k' = some outs
              rw [alookup_ainsert_self]
            · refine c3s k' (make_signature sha256 sha1 node ins) ?_
              show alookup (ainsert st.cache.signatures k'
                (make_signature sha256 sha1 node ins)) k' = some _
              rw [alookup_ainsert_self]
          · exact c5 k' hm

theorem pass2_spec (sha256 : String → String) (sha1 : List Nat → String)
    (reg : Registry) (g : Graph) (ctx : RuntimeContext) (total : Nat)
    (cacheF : ExecutionCache) (hmemo : ctx.enable_memoization = true) :
    ∀ (todo : List String) (index : Nat) (st : LoopState),
      st.cache = cacheF →
      (∀ s, alookup st.results s = none ∨ alookup st.results s = cacheF.get s) →
      (∀ k ∈ todo, k ∉ st.dirty) →
      (∀ k ∈ todo, CacheReady sha256 sha1 g cacheF k) →
      ∃ st', evalLoop sha256 sha1 reg g ctx false total todo index st = (st', none) ∧
        st'.cache = cacheF ∧
        st'.invoked = st.invoked ∧
        (∀ s, alookup st'.results s = none ∨ alookup st'.results s = cacheF.get s) ∧
        (∀ k ∈ todo, alookup st'.results k = cacheF.get k) ∧
        (∀ s, s ∉ todo → alookup st'.results s = alookup st.results s) := by
  intro todo
  induction todo with
  | nil =>
    intro index st hc hres _ _
    exact ⟨st, rfl, hc, rfl, hres, fun k hk => absurd hk (by simp), fun s _ => rfl⟩
  | cons k rest ih =>
    intro index st hc hres hd hready
    obtain ⟨node, ins, outs, hfind, hcoll, hget, hsig⟩ := hready k (by simp)
    have hW : ∀ s, orFalsy (alookup st.results s) (st.cache.get s) = cacheF.get s := by
      intro s
      rw [hc]
      rcases hres s with h | h
      · rw [h]
        rfl
      · rw [h, orFalsy_self]
    have hcol_st : collect_inputs g k st = .ok ins := by
      show collect_inputs_go k st (g.inputs_for k) = .ok ins
      rw [collect_go_eq_from]
      rw [collect_from_congr k
        (fun s => orFalsy (alookup st.results s) (st.cache.get s))
        (fun s => cacheF.get s) hW (g.inputs_for k)]
      exact hcoll
    have hconds : ReuseConds sha256 sha1 ctx false node k ins st := by
      refine ⟨rfl, hmemo, hd k (by simp), ?_⟩
      rw [hc]
      exact hsig
    have hget_st : st.cache.get k = some outs := by
      rw [hc]
      exact hget
    have hstep := eval_step_reuse sha256 sha1 reg g ctx false total index k st
      node ins outs hfind hcol_st hconds hget_st
    have hcR : (reuseState total index k outs st).cache = cacheF := hc
    have hresR : ∀ s, alookup (reuseState total index k outs st).results s = none ∨
        alookup (reuseState total index k outs st).results s = cacheF.get s := by
      intro s
      show alookup (ainsert st.results k outs) s = none ∨
        alookup (ainsert st.results k outs) s = cacheF.get s
      rw [alookup_ainsert]
      by_cases hs : s = k
      · right
        rw [if_pos hs, hs, hget]
      · rw [if_neg hs]
        exact hres s
    have hdR : ∀ k' ∈ rest, k' ∉ (reuseState total index k outs st).dirty := by
      intro k' hk'
      show k' ∉ st.dirty.filter (· ≠ k)
      intro hin
      exact hd k' (by simp [hk']) (List.mem_filter.mp hin).1
    obtain ⟨st', hloop', hc', hinv', hres', hmem', hout'⟩ :=
      ih (index + 1) (reuseState total index k outs st) hcR hresR hdR
        (fun k' hk' => hready k' (by simp [hk']))
    refine ⟨st', ?_, hc', hinv', hres', ?_, ?_⟩
    · simp only [evalLoop]
      rw [hstep]
      exact hloop'
    · intro k' hk'
      rcases List.mem_cons.mp hk' with he | hm
      · subst he
        by_cases hkr : k' ∈ rest
        · exact hmem' k' hkr
        · rw [hout' k' hkr]
          show alookup (ainsert st.results k' outs) k' = cacheF.get k'
          rw [alookup_ainsert_self, hget]
      · exact hmem' k' hm
    · intro s hs
      have hs2 : s ∉ rest := fun hc2 => hs (by simp [hc2])
      have hsk : s ≠ k := fun he => hs (by simp [he])
      rw [hout' s hs2]
      show alookup (ainsert st.results k outs) s = alookup st.results s
      rw [alookup_ainsert_ne _ _ _ _ hsk]

theorem eval_result_nodes_subset (g : Graph) (targets : Option (List String)) :
    eval_result_nodes g targets ⊆ g.nodeKeys := by
  cases targets with
  | none => exact fun x hx => hx
  | some ts =>
    intro x hx
    have := List.mem_filter.mp hx
    simpa using this.2

theorem result_fold_congr (A B : List (String × Outputs)) :
    ∀ (ns : List String) (acc : List (String × Outputs)),
      (∀ n ∈ ns, alookup A n = alookup B n) →
      ns.foldl (fun acc n => match alookup A n with
        | some o => ainsert acc n o
        | none => acc) acc =
      ns.foldl (fun acc n => match alookup B n with
        | some o => ainsert acc n o
        | none => acc) acc := by
  intro ns
  induction ns with
  | nil =>
    intro acc _
    rfl
  | cons n rest ih =>
    intro acc hag
    simp only [List.foldl_cons]
    rw [hag n (by simp)]
    exact ih _ (fun m hm => hag m (by simp [hm]))

theorem evaluate_empty (sha256 : String → String) (sha1 : List Nat → String)
    (reg : Registry) (g : Graph) (targets : Option (List String))
    (context : Option RuntimeContext) (force : Bool) (cache0 : ExecutionCache)
    (he : (eval_result_nodes g targets).isEmpty = true) :
    evaluate sha256 sha1 reg g targets context force cache0 =
      { result := .ok [], state := { cache := cache0, dirty := g.dirty } } := by
  cases targets with
  | none =>
    have he' : g.nodeKeys.isEmpty = true := he
    simp only [evaluate]
    rw [he']
    simp
  | some ts =>
    have he' : (ts.filter (· ∈ g.nodeKeys)).isEmpty = true := he
    simp only [evaluate]
    rw [he']
    simp

theorem evaluate_topo_error (sha256 : String → String) (sha1 : List Nat → String)
    (reg : Registry) (g : Graph) (targets : Option (List String))
    (context : Option RuntimeContext) (force : Bool) (cache0 : ExecutionCache)
    (err : GraphErr)
    (hne : (eval_result_nodes g targets).isEmpty = false)
    (herr : g.topological_order (some (eval_result_nodes g targets)) = .error err) :
    ∃ e, evaluate sha256 sha1 reg g targets context force cache0 =
      { result := .error e, state := { cache := cache0, dirty := g.dirty } } := by
  cases targets with
  | none =>
    have hne' : g.nodeKeys.isEmpty = false := hne
    have herr' : g.topological_order (some g.nodeKeys) = .error err := herr
    simp only [evaluate]
    rw [hne']
    simp only [Bool.false_eq_true, if_false]
    rw [herr']
    cases err with
    | cycle rem => exact ⟨.cycle rem, rfl⟩
    | duplicateNode k => exact ⟨.keyError k, rfl⟩
    | unknownNode k => exact ⟨.keyError k, rfl⟩
  | some ts =>
    have hne' : (ts.filter (· ∈ g.nodeKeys)).isEmpty = false := hne
    have herr' : g.topological_order (some (ts.filter (· ∈ g.nodeKeys))) =
        .error err := herr
    simp only [evaluate]
    rw [hne']
    simp only [Bool.false_eq_true, if_false]
    rw [herr']
    cases err with
    | cycle rem => exact ⟨.cycle rem, rfl⟩
    | duplicateNode k => exact ⟨.keyError k, rfl⟩
    | unknownNode k => exact ⟨.keyError k, rfl⟩

theorem evaluate_unfold (sha256 : String → String) (sha1 : List Nat → String)
    (reg : Registry) (g : Graph) (targets : Option (List String))
    (ctx : RuntimeContext) (force : Bool) (cache0 : ExecutionCache)
    (order : List String)
    (hne : (eval_result_nodes g targets).isEmpty = false)
    (horder : g.topological_order (some (eval_result_nodes g targets)) = .ok order) :
    evaluate sha256 sha1 reg g targets (some ctx) force cache0 =
      match evalLoop sha256 sha1 reg g ctx force order.length order 1
          { cache := cache0, dirty := g.dirty, plog := [(0, order.length, "")] } with
      | (st, some e) => { result := .error e, state := st }
      | (st, none) =>
        { result := .ok ((eval_result_nodes g targets).foldl
            (fun acc n => match alookup st.results n with
              | some o => ainsert acc n o
              | none => acc) []),
          state := st } := by
  cases targets with
  | none =>
    have hne' : g.nodeKeys.isEmpty = false := hne
    have horder' : g.topological_order (some g.nodeKeys) = .ok order := horder
    simp only [evaluate]
    rw [hne']
    simp only [Bool.false_eq_true, if_false]
    rw [horder']
    rfl
  | some ts =>
    have hne' : (ts.filter (· ∈ g.nodeKeys)).isEmpty = false := hne
    have horder' : g.topological_order (some (ts.filter (· ∈ g.nodeKeys))) =
        .ok order := horder
    simp only [evaluate]
    rw [hne']
    simp only [Bool.false_eq_true, if_false]
    rw [horder']
    rfl

theorem topo_ok_parts (g : Graph) (lt : List String) (order : List String)
    (h : g.topological_order (some lt) = .ok order) :
    order.Nodup ∧
    ∀ n, n ∈ order ↔ InClosure g ((lt.filter (· ∈ g.nodeKeys)).dedup) n := by
  simp only [Graph.topological_order] at h
  by_cases he : ((lt.filter (· ∈ g.nodeKeys)).dedup).isEmpty = true
  · rw [if_pos he] at h
    have ho : order = [] := (Except.ok.inj h).symm
    subst ho
    have hE : (lt.filter (· ∈ g.nodeKeys)).dedup = [] := List.isEmpty_iff.mp he
    refine ⟨List.nodup_nil, ?_⟩
    intro n
    constructor
    · intro hn
      exact absurd hn (by simp)
    · rintro ⟨r, hr, -⟩
      rw [hE] at hr
      exact absurd hr (by simp)
  · rw [if_neg he] at h
    cases hso : static_order g.dependencies_of
        ((g.closure_visited ((lt.filter (· ∈ g.nodeKeys)).dedup)).length + 1)
        (g.closure_visited ((lt.filter (· ∈ g.nodeKeys)).dedup)) [] with
    | error rem =>
      rw [hso] at h
      exact absurd h (by simp)
    | ok o =>
      rw [hso] at h
      simp only at h
      have ho : o = order := Except.ok.inj h
      subst ho
      obtain ⟨h1, h2, -, -⟩ := Graph.sorter_on_closure_ok g _
        (Graph.resolved_targets_subset g (some lt)) hso
      exact ⟨h1, h2⟩

theorem adr_dirty_irrel (g : Graph) (d : List String) :
    ∀ (fuel : Nat) (k : String) (v : List String),
      Graph.add_dependencies_recursive { g with dirty := d } fuel k v =
        Graph.add_dependencies_recursive g fuel k v := by
  intro fuel
  induction fuel with
  | zero =>
    intro k v
    rfl
  | succ n ih =>
    intro k v
    simp only [Graph.add_dependencies_recursive]
    by_cases hk : k ∈ v
    · rw [if_pos hk, if_pos hk]
    · rw [if_neg hk, if_neg hk]
      have hdep : Graph.dependencies_of { g with dirty := d } k =
          g.dependencies_of k := rfl
      have hfun : (fun (v : List String) (dd : String) =>
          Graph.add_dependencies_recursive { g with dirty := d } n dd v) =
          (fun v dd => Graph.add_dependencies_recursive g n dd v) := by
        funext v dd
        exact ih dd v
      rw [hdep, hfun]

theorem closure_dirty_irrel (g : Graph) (d : List String) (T : List String) :
    Graph.closure_visited { g with dirty := d } T = g.closure_visited T := by
  unfold Graph.closure_visited
  have hfun : (fun (v : List String) (k : String) =>
      Graph.add_dependencies_recursive { g with dirty := d }
        ((Graph.allKeys { g with dirty := d }).length + 1) k v) =
      (fun v k => Graph.add_dependencies_recursive g ((Graph.allKeys g).length + 1) k v) := by
    funext v k
    have hall : Graph.allKeys { g with dirty := d } = Graph.allKeys g := rfl
    rw [hall]
    exact adr_dirty_irrel g d _ k v
  rw [hfun]

theorem topo_dirty_irrel (g : Graph) (d : List String) (lt : Option (List String)) :
    Graph.topological_order { g with dirty := d } lt = g.topological_order lt := by
  have hdep : Graph.dependencies_of { g with dirty := d } = g.dependencies_of :=
    funext fun _ => rfl
  have hnk : Graph.nodeKeys { g with dirty := d } = g.nodeKeys := rfl
  simp only [Graph.topological_order]
  cases lt with
  | none =>
    simp only
    rw [hnk, closure_dirty_irrel, hdep]
  | some l =>
    simp only
    rw [hnk, closure_dirty_irrel, hdep]

theorem ern_dirty_irrel (g : Graph) (d : List String) (targets : Option (List String)) :
    eval_result_nodes { g with dirty := d } targets = eval_result_nodes g targets := by
  cases targets with
  | none => rfl
  | some ts => rfl

/-- C3: with memoization enabled and `force` off, a first successful
`evaluate` from an empty cache invokes exactly the nodes of the execution
order (each once), and a second `evaluate` on the same nodes, connections
and parameters (only the dirty flags were cleared by the first run),
sharing the cache, returns the same outputs with no handler invocation
and an unchanged cache. -/
theorem C3_idempotence (sha256 : String → String) (sha1 : List Nat → String)
    (reg : Registry) (g : Graph) (targets : Option (List String))
    (ctx : RuntimeContext) (hmemo : ctx.enable_memoization = true)
    (res1 : List (String × Outputs)) (st1 : LoopState)
    (h1 : evaluate sha256 sha1 reg g targets (some ctx) false {} =
      { result := .ok res1, state := st1 }) :
    (∃ order, g.topological_order (some (eval_result_nodes g targets)) = .ok order ∧
      order.Nodup ∧ st1.invoked = order) ∧
    ∃ st2, evaluate sha256 sha1 reg { g with dirty := st1.dirty } targets (some ctx)
        false st1.cache = { result := .ok res1, state := st2 } ∧
      st2.invoked = [] ∧ st2.cache = st1.cache := by
  by_cases hemp : (eval_result_nodes g targets).isEmpty = true
  · rw [evaluate_empty sha256 sha1 reg g targets (some ctx) false {} hemp] at h1
    rw [EvalOut.mk.injEq] at h1
    obtain ⟨hr, hs⟩ := h1
    have hres : res1 = [] := (Except.ok.inj hr).symm
    have hE : eval_result_nodes g targets = [] := List.isEmpty_iff.mp hemp
    constructor
    · refine ⟨[], ?_, List.nodup_nil, ?_⟩
      · rw [hE]
        rfl
      · rw [← hs]
    · refine ⟨{ cache := st1.cache, dirty := st1.dirty }, ?_, ?_, ?_⟩
      · have hemp₂ : (eval_result_nodes { g with dirty := st1.dirty } targets).isEmpty
            = true := hemp
        rw [evaluate_empty sha256 sha1 reg { g with dirty := st1.dirty } targets
          (some ctx) false st1.cache hemp₂]
        rw [hres]
      · rfl
      · rfl
  · have hne : (eval_result_nodes g targets).isEmpty = false := by
      cases hb : (eval_result_nodes g targets).isEmpty with
      | false => rfl
      | true => exact absurd hb hemp
    cases horder : g.topological_order (some (eval_result_nodes g targets)) with
    | error err =>
      obtain ⟨e, hev⟩ := evaluate_topo_error sha256 sha1 reg g targets (some ctx)
        false {} err hne horder
      rw [hev] at h1
      rw [EvalOut.mk.injEq] at h1
      exact absurd h1.1 (by simp)
    | ok order =>
      rw [evaluate_unfold sha256 sha1 reg g targets ctx false {} order hne horder] at h1
      obtain ⟨hnd, hmemiff⟩ := topo_ok_parts g (eval_result_nodes g targets) order horder
      cases hloop : evalLoop sha256 sha1 reg g ctx false order.length order 1
          { cache := {}, dirty := g.dirty, plog := [(0, order.length, "")] } with
      | mk st oe =>
        rw [hloop] at h1
        cases oe with
        | some e =>
          simp only at h1
          rw [EvalOut.mk.injEq] at h1
          exact absurd h1.1 (by simp)
        | none =>
          simp only at h1
          rw [EvalOut.mk.injEq] at h1
          obtain ⟨hr, hs⟩ := h1
          subst hs
          have hres : res1 = ((eval_result_nodes g targets).foldl
              (fun acc n => match alookup st.results n with
                | some o => ainsert acc n o
                | none => acc) []) := (Except.ok.inj hr).symm
          obtain ⟨c1, c2, c3, c3s, c6, c4, c5⟩ :=
            pass1_spec sha256 sha1 reg g ctx false order.length hmemo order 1
              { cache := {}, dirty := g.dirty, plog := [(0, order.length, "")] } st
              hnd (fun s => rfl) (fun k _ => ⟨rfl, rfl⟩) hloop
          refine ⟨⟨order, rfl, hnd, by simpa using c1⟩, ?_⟩
          have hne₂ : (eval_result_nodes { g with dirty := st.dirty } targets).isEmpty
              = false := hne
          have horder₂ : ({ g with dirty := st.dirty } : Graph).topological_order
              (some (eval_result_nodes { g with dirty := st.dirty } targets)) =
              .ok order := by
            rw [topo_dirty_irrel, ern_dirty_irrel]
            exact horder
          obtain ⟨st2, hloop2, hcache2, hinv2, hres2, hmem2, -⟩ :=
            pass2_spec sha256 sha1 reg { g with dirty := st.dirty } ctx order.length
              st.cache hmemo order 1
              { cache := st.cache, dirty := st.dirty, plog := [(0, order.length, "")] }
              rfl (fun s => Or.inl rfl) (fun k hk => c4 k hk) (fun k hk => c5 k hk)
          refine ⟨st2, ?_, hinv2, hcache2⟩
          rw [evaluate_unfold sha256 sha1 reg { g with dirty := st.dirty } targets ctx
            false st.cache order hne₂ horder₂]
          rw [hloop2]
          simp only [EvalOut.mk.injEq]
          refine ⟨?_, trivial⟩
          rw [hres]
          have hlk : ∀ n ∈ eval_result_nodes g targets,
              alookup st2.results n = alookup st.results n := by
            intro n hn
            have hnk : n ∈ g.nodeKeys := eval_result_nodes_subset g targets hn
            have hno : n ∈ order := by
              rw [hmemiff n]
              refine ⟨n, ?_, Relation.ReflTransGen.refl⟩
              rw [List.mem_dedup, List.mem_filter]
              exact ⟨hn, by simpa using hnk⟩
            rw [hmem2 n hno, c2 n]
          exact congrArg Except.ok (result_fold_congr st2.results st.results
            (eval_result_nodes g targets) [] hlk)

def node3 : GNode := { key := "a", type := "t" }

def out1 : Outputs := [("out", Value.vint 1)]

def defn3 : NodeDefinition :=
  { handler := fun _ _ _ => .ok (.vdict [("out", .vint 1)]) }

def g3 : Graph :=
  { name := "w", nodes := [node3],
    connections := [], dependents := [], dirty := [] }

/-- The registry stores definitions under the lower-cased type name, as
`NodeRegistry.register` does. -/
def reg3 : Registry := [("t".toLower, defn3)]

def ctx3 : RuntimeContext := { graph := g3 }

/-- The state after the first witness evaluation: outputs produced,
cached under the (constant test hash) signature, and one invocation. -/
def st3w : LoopState :=
  { results := [("a", [("out", Value.vint 1)])],
    cache := { values := [("a", [("out", Value.vint 1)])],
               signatures := [("a", "s")] },
    dirty := [], invoked := ["a"],
    plog := [(0, 1, ""), (1, 1, "a")] }

theorem C3w_eval :
    evaluate (fun _ => "s") (fun _ => "h") reg3 g3 none (some ctx3) false {} =
      { result := .ok [("a", out1)], state := st3w } := by
  have hreg : registry_get reg3 "t" = some defn3 := by
    show alookup [("t".toLower, defn3)] ("t".toLower) = some defn3
    show (if "t".toLower = "t".toLower then some defn3
      else alookup [] ("t".toLower)) = some defn3
    rw [if_pos rfl]
  have hnconds : ¬ ReuseConds (fun _ => "s") (fun _ => "h") ctx3 false node3 "a" []
      { cache := {}, dirty := g3.dirty, plog := [(0, 1, "")] } := by
    intro hc
    have h2 := hc.2.2.2
    simp [alookup] at h2
  have hstep : eval_step (fun _ => "s") (fun _ => "h") reg3 g3 ctx3 false 1 1 "a"
      { cache := {}, dirty := g3.dirty, plog := [(0, 1, "")] } = .ok st3w := by
    rw [eval_step_invoke (fun _ => "s") (fun _ => "h") reg3 g3 ctx3 false 1 1 "a"
      { cache := {}, dirty := g3.dirty, plog := [(0, 1, "")] } node3 [] out1 defn3
      rfl rfl hnconds hreg rfl]
    rw [invokeState_memo (fun _ => "s") (fun _ => "h") ctx3 1 1 node3 "a" [] out1
      { cache := {}, dirty := g3.dirty, plog := [(0, 1, "")] } rfl]
    rfl
  rw [evaluate_unfold (fun _ => "s") (fun _ => "h") reg3 g3 none ctx3 false {}
    ["a"] rfl rfl]
  show ((match evalLoop (fun _ => "s") (fun _ => "h") reg3 g3 ctx3 false 1 ["a"] 1
      { cache := {}, dirty := g3.dirty, plog := [(0, 1, "")] } with
    | (st, some e) => { result := Except.error e, state := st }
    | (st, none) =>
      { result := Except.ok ((eval_result_nodes g3 none).foldl
          (fun acc n => match alookup st.results n with
            | some o => ainsert acc n o
            | none => acc) []),
        state := st }) : EvalOut) = { result := .ok [("a", out1)], state := st3w }
  simp only [evalLoop]
  rw [hstep]
  rfl

theorem C3_idempotence_witness :
    ctx3.enable_memoization = true ∧
    evaluate (fun _ => "s") (fun _ => "h") reg3 g3 none (some ctx3) false {} =
      { result := .ok [("a", out1)], state := st3w } ∧
    ((∃ order, g3.topological_order (some (eval_result_nodes g3 none)) = .ok order ∧
        order.Nodup ∧ st3w.invoked = order) ∧
      ∃ st2, evaluate (fun _ => "s") (fun _ => "h") reg3
          { g3 with dirty := st3w.dirty } none (some ctx3) false st3w.cache =
          { result := .ok [("a", out1)], state := st2 } ∧
        st2.invoked = [] ∧ st2.cache = st3w.cache) := by
  have hmemo : ctx3.enable_memoization = true := rfl
  exact ⟨hmemo, C3w_eval,
    C3_idempotence (fun _ => "s") (fun _ => "h") reg3 g3 none ctx3 hmemo
      [("a", out1)] st3w C3w_eval⟩

end Hesiod
